import Mathlib

/-!
Verification development for the kusto-dashboard-manager repository.

The development shallowly embeds the two core subsystems:
  * the snapshot parser and creator filter
    (src/dashboard_export.py: DashboardExporter._parse_raw_snapshot_text,
     DashboardExporter.export_all_dashboards;
     src/dashboard_list_parser.py: DashboardListParser.__init__,
     sanitize_filename), and
  * the stdio JSON-RPC transport
    (src/playwright_mcp_client.py: PlaywrightMCPClient._read_message /
     _send_request; client/python-mcp-client-sdk-20251010-092718/
     working-py-mcp-client.py: WorkingPyMCPClient._send_request / connect,
     SimplePyMCPClient._send_cl_request).

Modelling conventions:
  * Python strings are `List Char`; the byte-oriented parts of the transport
    are modelled over ASCII text, where one character is one byte, so byte
    lengths are list lengths.
  * JSON numbers are modelled as integers (the messages the clients build and
    the spec's Message data model use integer ids and codes); floating-point
    values are outside the model.
  * A read deadline is modelled by stream exhaustion on a stream that is not
    closed: data that never arrives before the deadline is data that is not
    in the stream.  A closed stream signals end-of-file after its last byte.
All definitions are kept structurally recursive so that concrete runs of the
embedded code reduce inside the kernel.
-/

abbrev Str := List Char

/-! ## Python primitives shared by the embeddings -/

/-- Python `\s` / `str.split()` / `str.strip()` whitespace (ASCII range). -/
def pySpace (c : Char) : Bool :=
  c = ' ' || c = '\t' || c = '\n' || c = '\r' || c = Char.ofNat 11 || c = Char.ofNat 12

def dropPySpace (s : Str) : Str := s.dropWhile pySpace

/-- Regex `\s+`: requires at least one whitespace character, consumes the run. -/
def reqSpaces1 : Str → Option Str
  | c :: t => if pySpace c then some (dropPySpace t) else none
  | [] => none

/-- Consume an exact literal, returning the rest of the input. -/
def expectLit : Str → Str → Option Str
  | [], s => some s
  | c :: p, d :: s => if c = d then expectLit p s else none
  | _ :: _, [] => none

/-- Python `str.strip()` with no argument (strip whitespace at both ends). -/
def pyStripWs (s : Str) : Str :=
  ((s.dropWhile pySpace).reverse.dropWhile pySpace).reverse

/-- Python `str.strip(ch)` for a single character. -/
def pyStripChar (ch : Char) (s : Str) : Str :=
  ((s.dropWhile (· = ch)).reverse.dropWhile (· = ch)).reverse

def splitWsAux (cur : Str) : Str → List Str
  | [] => match cur with
    | [] => []
    | _ => [cur.reverse]
  | c :: t =>
    if pySpace c then
      match cur with
      | [] => splitWsAux [] t
      | _ => cur.reverse :: splitWsAux [] t
    else splitWsAux (c :: cur) t

/-- Python `str.split()` with no argument: split on whitespace runs, no empties. -/
def splitWs (s : Str) : List Str := splitWsAux [] s

/-- Python `" ".join(parts)`. -/
def joinSpace : List Str → Str
  | [] => []
  | [x] => x
  | x :: y :: r => x ++ ' ' :: joinSpace (y :: r)

def splitNlAux (cur : Str) : Str → List Str
  | [] => [cur.reverse]
  | c :: t => if c = '\n' then cur.reverse :: splitNlAux [] t else splitNlAux (c :: cur) t

/-- Python `str.split("\n")` (keeps empty pieces). -/
def pySplitNl (s : Str) : List Str := splitNlAux [] s

/-- Python `str.lower()` on ASCII. -/
def lowerChar (c : Char) : Char :=
  if 'A' ≤ c ∧ c ≤ 'Z' then Char.ofNat (c.toNat + 32) else c

def pyLower (s : Str) : Str := s.map lowerChar

def startsWithStr : Str → Str → Bool
  | [], _ => true
  | _ :: _, [] => false
  | c :: n, d :: h => c = d && startsWithStr n h

/-- Python `needle in hay` on strings (substring containment). -/
def pyInStr (needle : Str) : Str → Bool
  | [] => startsWithStr needle []
  | hay@(_ :: t) => startsWithStr needle hay || pyInStr needle t

/-! ## Snapshot parser
`DashboardExporter._parse_raw_snapshot_text` (src/dashboard_export.py). -/

/-- One parsed dashboard, the dict `{"url": ..., "name": ..., "creator": ...}`
appended by `_parse_raw_snapshot_text` (the spec's DashboardRecord: `creator`
is the record's createdBy and the identifier is embedded in `url`). -/
structure Dash where
  url : Str
  name : Str
  creator : Str
deriving DecidableEq, Repr

/-- Regex `re.match(r'\s*-\s*row\s+"([^"]+)"\s+\[ref=', line)`, returning the
captured row text. -/
def rowMatch (line : Str) : Option Str :=
  match dropPySpace line with
  | '-' :: t =>
    match expectLit (("row").toList) (dropPySpace t) with
    | some r1 =>
      match reqSpaces1 r1 with
      | some r2 =>
        match r2 with
        | '"' :: r3 =>
          let cap := r3.takeWhile (fun c => !(c = '"'))
          if cap = [] then none
          else
            match r3.dropWhile (fun c => !(c = '"')) with
            | '"' :: r4 =>
              match reqSpaces1 r4 with
              | some r5 =>
                match expectLit (("[ref=").toList) r5 with
                | some _ => some cap
                | none => none
              | none => none
            | _ => none
        | _ => none
      | none => none
    | none => none
  | _ => none

/-- The pattern `rowheader\s+"([^"]+)"` anchored at the start of `s`. -/
def matchRowheaderAt (s : Str) : Option Str :=
  match expectLit (("rowheader").toList) s with
  | some r1 =>
    match reqSpaces1 r1 with
    | some r2 =>
      match r2 with
      | '"' :: r3 =>
        let cap := r3.takeWhile (fun c => !(c = '"'))
        if cap = [] then none
        else
          match r3.dropWhile (fun c => !(c = '"')) with
          | '"' :: _ => some cap
          | _ => none
      | _ => none
    | none => none
  | none => none

/-- Regex `re.search(r'rowheader\s+"([^"]+)"', line)`. -/
def searchRowheader : Str → Option Str
  | [] => none
  | s@(_ :: t) =>
    match matchRowheaderAt s with
    | some cap => some cap
    | none => searchRowheader t

/-- Characters of the class `[a-f0-9-]`. -/
def hexDash (c : Char) : Bool := ('a' ≤ c && c ≤ 'f') || c.isDigit || c = '-'

/-- The pattern `/url:\s+/dashboards/([a-f0-9-]+)` anchored at the start. -/
def matchUrlAt (s : Str) : Option Str :=
  match expectLit (("/url:").toList) s with
  | some r1 =>
    match reqSpaces1 r1 with
    | some r2 =>
      match expectLit (("/dashboards/").toList) r2 with
      | some r3 =>
        let cap := r3.takeWhile hexDash
        if cap = [] then none else some cap
      | none => none
    | none => none
  | none => none

/-- Regex `re.search(r"/url:\s+/dashboards/([a-f0-9-]+)", line)`. -/
def searchUrl : Str → Option Str
  | [] => none
  | s@(_ :: t) =>
    match matchUrlAt s with
    | some cap => some cap
    | none => searchUrl t

/-- Regex `re.match(r"\d{1,2}/\d{1,2}/\d{4}", part)`: a prefix of the shape
one-or-two digits, `/`, one-or-two digits, `/`, four digits. -/
def dateTokenMatch (tok : Str) : Bool :=
  let d1 := tok.takeWhile Char.isDigit
  if d1.length = 0 || 2 < d1.length then false
  else
    match tok.dropWhile Char.isDigit with
    | '/' :: r2 =>
      let d2 := r2.takeWhile Char.isDigit
      if d2.length = 0 || 2 < d2.length then false
      else
        match r2.dropWhile Char.isDigit with
        | '/' :: r4 => 4 ≤ (r4.takeWhile Char.isDigit).length
        | _ => false
    | _ => false

/-- The creator loop of `_parse_raw_snapshot_text`: scan the split row text for
the first date-shaped token; the creator is the join of the remaining tokens
(`""` when no date token is found). -/
def firstDateCreator : List Str → Str
  | [] => []
  | p :: ps => if dateTokenMatch p then joinSpace ps else firstDateCreator ps

/-- Creator extraction including the `"--"` default and the final `.strip()`. -/
def extractCreator (row_text : Str) : Str :=
  let creator := firstDateCreator (splitWs row_text)
  let creator := if creator = [] then ("--").toList else creator
  pyStripWs creator

/-- The spec's wording of creator extraction, with no sentinel defaulting:
"split the row text on whitespace; scan tokens for the first one matching an
M/D/YYYY-shaped date; the creator is the remaining tokens after that date,
rejoined with single spaces and trimmed". -/
def specCreatorAfterDate (row_text : Str) : Str :=
  pyStripWs (firstDateCreator (splitWs row_text))

def urlOfId (dashboard_id : Str) : Str :=
  ("https://dataexplorer.azure.com/dashboards/").toList ++ dashboard_id

/-- The lookahead loop over `lines[i+1 : min(i+10, len(lines))]`: remember the
first rowheader capture, overwrite the URL with each URL capture, and stop
early once both are present. -/
def lookahead : List Str → Option Str → Option Str → Option Str × Option Str
  | [], name, url => (name, url)
  | l :: rest, name, url =>
    let name := match name with
      | none => searchRowheader l
      | some n => some n
    let url := match searchUrl l with
      | some id => some (urlOfId id)
      | none => url
    if name.isSome && url.isSome then (name, url) else lookahead rest name url

/-- The slice `lines[i+1 : min(i+10, len(lines))]` seen by the lookahead. -/
def window (lines : List Str) (i : Nat) : List Str := (lines.drop (i + 1)).take 9

/-- One iteration of the scan at index `i`: a dashboard is produced only when
the line is a row line and the lookahead found both a name and a URL. -/
def parseStep (lines : List Str) (i : Nat) : Option Dash :=
  match lines.get? i with
  | none => none
  | some line =>
    match rowMatch line with
    | none => none
    | some row_text =>
      match lookahead (window lines i) none none with
      | (some name, some url) => some ⟨url, name, extractCreator row_text⟩
      | _ => none

/-- `DashboardExporter._parse_raw_snapshot_text`, over the split lines. -/
def parse_raw_snapshot_text (lines : List Str) : List Dash :=
  (List.range lines.length).filterMap (parseStep lines)

/-- The same parser applied to the raw snapshot text. -/
def parseRawText (raw : Str) : List Dash :=
  parse_raw_snapshot_text (pySplitNl raw)

/-! ## Creator filtering
`DashboardExporter.export_all_dashboards` applies the filter only when the
creator filter string is truthy; `DashboardListParser.__init__` instead
rejects a blank creator up front. -/

/-- The filter step of `export_all_dashboards`:
`if creator_filter: dashboards = [d for d in dashboards
    if creator_filter.lower() in d.get("creator", "").lower()]`. -/
def export_all_dashboards_filter (creator_filter : Str) (dashboards : List Dash) :
    List Dash :=
  if creator_filter = [] then dashboards
  else dashboards.filter (fun d => pyInStr (pyLower creator_filter) (pyLower d.creator))

/-- The dashboard-list portion of `export_all_dashboards`: parse the raw
snapshot text, then apply the (conditional) creator filter. -/
def exportListPath (creator_filter : Str) (raw : Str) : List Dash :=
  export_all_dashboards_filter creator_filter (parseRawText raw)

/-- `DashboardListParser.__init__`: raise `ValueError` when `required_creator`
is falsy or blank, else store the stripped creator. -/
def DashboardListParser_init (required_creator : Str) : Except Str Str :=
  if required_creator = [] then
    Except.error (("required_creator must be specified").toList)
  else if pyStripWs required_creator = [] then
    Except.error (("required_creator must be specified").toList)
  else Except.ok (pyStripWs required_creator)

/-! ## Filename sanitisation (`sanitize_filename`, src/dashboard_list_parser.py) -/

/-- The characters of the class `[<>:"/\\|?*]`. -/
def forbiddenChar (c : Char) : Bool :=
  c = '<' || c = '>' || c = ':' || c = '"' || c = '/' || c = '\\' || c = '|' ||
    c = '?' || c = '*'

def collapseUAux (prevU : Bool) : Str → Str
  | [] => []
  | c :: t =>
    if c = '_' then
      (if prevU then collapseUAux true t else '_' :: collapseUAux true t)
    else c :: collapseUAux false t

/-- Regex `re.sub(r'_+', '_', s)`. -/
def collapseUnderscores (s : Str) : Str := collapseUAux false s

/-- The stem built by `sanitize_filename` before `".json"` is appended. -/
def sanitizeStem (name : Str) : Str :=
  let s1 := name.map (fun c => if forbiddenChar c then '_' else c)
  let s2 := s1.map (fun c => if c = ' ' then '_' else c)
  let s3 := collapseUnderscores s2
  let s4 := pyStripChar '_' s3
  if 200 < s4.length then s4.take 200 else s4

/-- `sanitize_filename` (src/dashboard_list_parser.py). -/
def sanitize_filename (name : Str) : Str := sanitizeStem name ++ (".json").toList

/-! ## JSON values and `json.dumps`
The transport serialises Python dicts with `json.dumps` (default separators
`", "` and `": "`, `ensure_ascii=True`) and parses with `json.loads`.  JSON
values are modelled with integer numbers and the embedding is faithful on
ASCII data, where one character is one byte. -/

inductive Json where
  | null : Json
  | bool (b : Bool) : Json
  | num (n : Int) : Json
  | str (s : Str) : Json
  | arr (elems : List Json) : Json
  | obj (fields : List (Str × Json)) : Json

/-- Decimal digit character (for `d < 10`). -/
def digitChar (d : Nat) : Char := Char.ofNat (48 + d)

/-- Lowercase hex digit character (for `d < 16`), as `"%04x"` produces. -/
def hexDigChar (d : Nat) : Char :=
  if d < 10 then Char.ofNat (48 + d) else Char.ofNat (87 + d)

def natDigitsF : Nat → Nat → Str
  | 0, _ => []
  | f + 1, n =>
    if n < 10 then [digitChar n]
    else natDigitsF f (n / 10) ++ [digitChar (n % 10)]

/-- Decimal digits of a natural number (most significant first). -/
def natDigits (n : Nat) : Str := natDigitsF (n + 1) n

/-- Python `repr` of an integer, as `json.dumps` prints ints. -/
def intRepr (n : Int) : Str :=
  if n < 0 then '-' :: natDigits n.natAbs else natDigits n.toNat

/-- `json.dumps` escaping of one character (`ensure_ascii=True`): quote,
backslash and the short control escapes, `\u00xx` for remaining control and
non-printable characters, everything in `0x20..0x7e` verbatim. -/
def escapeChar (c : Char) : Str :=
  if c = '"' then ['\\', '"']
  else if c = '\\' then ['\\', '\\']
  else if c = '\n' then ['\\', 'n']
  else if c = '\r' then ['\\', 'r']
  else if c = '\t' then ['\\', 't']
  else if c = Char.ofNat 8 then ['\\', 'b']
  else if c = Char.ofNat 12 then ['\\', 'f']
  else if c.toNat < 32 ∨ 126 < c.toNat then
    ['\\', 'u', hexDigChar (c.toNat / 4096 % 16), hexDigChar (c.toNat / 256 % 16),
      hexDigChar (c.toNat / 16 % 16), hexDigChar (c.toNat % 16)]
  else [c]

def escapeStr : Str → Str
  | [] => []
  | c :: t => escapeChar c ++ escapeStr t

mutual
/-- `json.dumps` with the default separators `", "` / `": "`. -/
def dumpsJson : Json → Str
  | .null => ("null").toList
  | .bool true => ("true").toList
  | .bool false => ("false").toList
  | .num n => intRepr n
  | .str s => '"' :: escapeStr s ++ ['"']
  | .arr xs => '[' :: dumpsList xs ++ [']']
  | .obj fs => '{' :: dumpsFields fs ++ ['}']

def dumpsList : List Json → Str
  | [] => []
  | [x] => dumpsJson x
  | x :: y :: r => dumpsJson x ++ ',' :: ' ' :: dumpsList (y :: r)

def dumpsFields : List (Str × Json) → Str
  | [] => []
  | [(k, v)] => '"' :: escapeStr k ++ '"' :: ':' :: ' ' :: dumpsJson v
  | (k, v) :: p :: r =>
    '"' :: escapeStr k ++ '"' :: ':' :: ' ' :: dumpsJson v ++ ',' :: ' ' :: dumpsFields (p :: r)
end

/-- The items after the first one, as laid out by `dumpsList`. -/
def dumpsListTail : List Json → Str
  | [] => []
  | x :: r => ',' :: ' ' :: dumpsJson x ++ dumpsListTail r

/-- One serialised object member. -/
def dumpsField (k : Str) (v : Json) : Str :=
  '"' :: escapeStr k ++ '"' :: ':' :: ' ' :: dumpsJson v

/-- The members after the first one, as laid out by `dumpsFields`. -/
def dumpsFieldsTail : List (Str × Json) → Str
  | [] => []
  | (k, v) :: r => ',' :: ' ' :: dumpsField k v ++ dumpsFieldsTail r

def asciiStr (s : Str) : Bool := s.all (fun c => c.toNat < 128)

mutual
/-- Wellformedness of the model: all strings are ASCII, so that character
counts agree with UTF-8 byte counts and `ensure_ascii` escaping stays inside
the `\u00xx` range. -/
def wfJson : Json → Bool
  | .null => true
  | .bool _ => true
  | .num _ => true
  | .str s => asciiStr s
  | .arr xs => wfList xs
  | .obj fs => wfFields fs

def wfList : List Json → Bool
  | [] => true
  | x :: r => wfJson x && wfList r

def wfFields : List (Str × Json) → Bool
  | [] => true
  | (k, v) :: r => asciiStr k && wfJson v && wfFields r
end

mutual
/-- Fuel bound for the recursive-descent parser on a serialised value. -/
def sizeJ : Json → Nat
  | .null => 1
  | .bool _ => 1
  | .num _ => 1
  | .str _ => 1
  | .arr [] => 1
  | .arr (x :: r) => 1 + max (sizeJ x) (sizeL r)
  | .obj [] => 1
  | .obj (f :: r) => 1 + max (1 + sizeJ f.2) (sizeF r)

def sizeL : List Json → Nat
  | [] => 1
  | x :: r => 1 + max (sizeJ x) (sizeL r)

def sizeF : List (Str × Json) → Nat
  | [] => 1
  | f :: r => 1 + max (1 + sizeJ f.2) (sizeF r)
end

/-! ### `json.loads`, as a recursive-descent parser -/

/-- JSON inter-token whitespace (what Python's json module skips). -/
def jsonWs (c : Char) : Bool := c = ' ' || c = '\t' || c = '\n' || c = '\r'

def skipWs (s : Str) : Str := s.dropWhile jsonWs

def hexVal (c : Char) : Option Nat :=
  if c.isDigit then some (c.toNat - 48)
  else if 'a' ≤ c && c ≤ 'f' then some (c.toNat - 87)
  else if 'A' ≤ c && c ≤ 'F' then some (c.toNat - 55)
  else none

/-- Short escape table of the JSON string grammar. -/
def escShort (e : Char) : Option Char :=
  if e = '"' then some '"'
  else if e = '\\' then some '\\'
  else if e = '/' then some '/'
  else if e = 'b' then some (Char.ofNat 8)
  else if e = 'f' then some (Char.ofNat 12)
  else if e = 'n' then some '\n'
  else if e = 'r' then some '\r'
  else if e = 't' then some '\t'
  else none

/-- Parse a JSON string body (after the opening quote), strict about raw
control characters, handling the short escapes and `\uXXXX`. -/
def parseStringBody : Str → Option (Str × Str)
  | [] => none
  | c :: rest =>
    if c = '"' then some ([], rest)
    else if c = '\\' then
      match rest with
      | [] => none
      | e :: r =>
        if e = 'u' then
          match r with
          | a :: b :: c2 :: d :: r2 =>
            match hexVal a, hexVal b, hexVal c2, hexVal d with
            | some x, some y, some z, some w =>
              (parseStringBody r2).map
                (fun p => (Char.ofNat (4096 * x + 256 * y + 16 * z + w) :: p.1, p.2))
            | _, _, _, _ => none
          | _ => none
        else
          match escShort e with
          | some ec => (parseStringBody r).map (fun p => (ec :: p.1, p.2))
          | none => none
    else if c.toNat < 32 then none
    else (parseStringBody rest).map (fun p => (c :: p.1, p.2))

def digitVal (c : Char) : Nat := c.toNat - 48

/-- Parse an unsigned JSON integer: `0`, or a nonzero leading digit followed
by a maximal digit run (the grammar `0|[1-9][0-9]*`). -/
def parseUInt : Str → Option (Nat × Str)
  | [] => none
  | c :: r =>
    if c = '0' then some (0, r)
    else if c.isDigit then
      some (((c :: r).takeWhile Char.isDigit).foldl (fun a d => 10 * a + digitVal d) 0,
        (c :: r).dropWhile Char.isDigit)
    else none

def parseNumTok : Str → Option (Int × Str)
  | [] => none
  | c :: cs =>
    if c = '-' then (parseUInt cs).map (fun p => (-(p.1 : Int), p.2))
    else (parseUInt (c :: cs)).map (fun p => ((p.1 : Int), p.2))

/-- Parser modes: a value, the rest of an array, the rest of an object, or one
`"key": value` member. -/
inductive PMode where
  | val : PMode
  | arrTail (acc : List Json) : PMode
  | objTail (acc : List (Str × Json)) : PMode
  | field : PMode

inductive POut where
  | v (j : Json) : POut
  | kv (k : Str) (j : Json) : POut

/-- The recursive-descent core of `json.loads` (integers only; fuel decreases
with every nested parse, and one unit of fuel always consumes at least one
input character, so `length + 1` fuel is enough for any input). -/
def parseF : Nat → PMode → Str → Option (POut × Str)
  | 0, _, _ => none
  | fuel + 1, .val, s =>
    match skipWs s with
    | [] => none
    | c :: cs =>
      if c = 'n' then
        match cs with
        | 'u' :: 'l' :: 'l' :: cs2 => some (.v .null, cs2)
        | _ => none
      else if c = 't' then
        match cs with
        | 'r' :: 'u' :: 'e' :: cs2 => some (.v (.bool true), cs2)
        | _ => none
      else if c = 'f' then
        match cs with
        | 'a' :: 'l' :: 's' :: 'e' :: cs2 => some (.v (.bool false), cs2)
        | _ => none
      else if c = '"' then
        match parseStringBody cs with
        | some (t, r) => some (.v (.str t), r)
        | none => none
      else if c = '[' then
        match skipWs cs with
        | [] => none
        | d :: r =>
          if d = ']' then some (.v (.arr []), r)
          else
            match parseF fuel .val cs with
            | some (.v v, r2) => parseF fuel (.arrTail [v]) r2
            | _ => none
      else if c = '{' then
        match skipWs cs with
        | [] => none
        | d :: r =>
          if d = '}' then some (.v (.obj []), r)
          else
            match parseF fuel .field cs with
            | some (.kv k v, r2) => parseF fuel (.objTail [(k, v)]) r2
            | _ => none
      else if c = '-' || c.isDigit then
        match parseNumTok (c :: cs) with
        | some (n, r) => some (.v (.num n), r)
        | none => none
      else none
  | fuel + 1, .arrTail acc, s =>
    match skipWs s with
    | [] => none
    | c :: r =>
      if c = ']' then some (.v (.arr acc), r)
      else if c = ',' then
        match parseF fuel .val r with
        | some (.v v, r2) => parseF fuel (.arrTail (acc ++ [v])) r2
        | _ => none
      else none
  | fuel + 1, .objTail acc, s =>
    match skipWs s with
    | [] => none
    | c :: r =>
      if c = '}' then some (.v (.obj acc), r)
      else if c = ',' then
        match parseF fuel .field r with
        | some (.kv k v, r2) => parseF fuel (.objTail (acc ++ [(k, v)])) r2
        | _ => none
      else none
  | fuel + 1, .field, s =>
    match skipWs s with
    | [] => none
    | c :: cs =>
      if c = '"' then
        match parseStringBody cs with
        | some (k, r) =>
          match skipWs r with
          | [] => none
          | d :: r2 =>
            if d = ':' then
              match parseF fuel .val r2 with
              | some (.v v, r3) => some (.kv k v, r3)
              | _ => none
            else none
        | none => none
      else none

/-- `json.loads`: parse one value, reject leftover non-whitespace input. -/
def loads (s : Str) : Option Json :=
  match parseF (s.length + 1) .val s with
  | some (.v v, rest) => if skipWs rest = [] then some v else none
  | _ => none

/-! ## Newline framing
`PlaywrightMCPClient` (src/playwright_mcp_client.py): requests are
`json.dumps(payload) + "\n"`; `_read_message` does one `readline` bounded by a
timeout and parses `line.strip()`; `_send_request` writes, then returns the
very next decoded message. -/

def splitFirstNlAux (acc : Str) : Str → Option (Str × Str)
  | [] => none
  | c :: t =>
    if c = '\n' then some (('\n' :: acc).reverse, t) else splitFirstNlAux (c :: acc) t

/-- `readline` on a stream: the line up to and including the first newline; at
end of a closed stream the unterminated remainder (empty at EOF); `none` when
an open stream has no newline to deliver before the deadline. -/
def pyReadline (data : Str) (closed : Bool) : Option (Str × Str) :=
  match splitFirstNlAux [] data with
  | some (l, rest) => some (l, rest)
  | none => if closed then some (data, []) else none

/-- `PlaywrightMCPClient._read_message`: `readline` under `asyncio.wait_for`,
`None` for an empty read or any exception, else `json.loads(line.strip())`. -/
def read_message (data : Str) (closed : Bool) : Option Json :=
  match pyReadline data closed with
  | none => none
  | some (line, _) => if line = [] then none else loads (pyStripWs line)

def encodeNl (payload : Json) : Str := dumpsJson payload ++ ['\n']

/-- `PlaywrightMCPClient._send_request`: write the framed payload, then return
the next message decoded from the stream — the payload (and in particular its
`id`) plays no part in choosing the message that is returned. -/
def send_request_nl (payload : Json) (data : Str) (closed : Bool) : Option Json :=
  read_message data closed

/-! ## Content-Length framing
`WorkingPyMCPClient._send_request`: byte-at-a-time header accumulation bounded
by 8192 bytes and a deadline, `Content-Length` extraction, an exact-length
body loop, then `json.loads`. -/

inductive CLResult where
  | msg (j : Json) : CLResult
  | eofHeaders : CLResult
  | headerTooLarge : CLResult
  | headerTimeout : CLResult
  | badLength : CLResult
  | eofBody : CLResult
  | bodyIncomplete : CLResult
  | decodeError : CLResult

def crlf2 : Str := ['\r', '\n', '\r', '\n']

/-- The header loop: read one character at a time until the buffer contains
`"\r\n\r\n"`, failing on EOF, on a buffer beyond 8192 bytes, or when an open
stream runs dry (deadline). -/
def clReadHeaders (buf : Str) : Str → Bool → Except CLResult (Str × Str)
  | [], closed =>
    if pyInStr crlf2 buf then .ok (buf, [])
    else .error (if closed then .eofHeaders else .headerTimeout)
  | c :: t, closed =>
    if pyInStr crlf2 buf then .ok (buf, c :: t)
    else if 8192 < (buf ++ [c]).length then .error .headerTooLarge
    else clReadHeaders (buf ++ [c]) t closed

/-- `header_buf.split("\r\n\r\n", 1)`: split at the first marker occurrence. -/
def splitMarkerAux (acc : Str) : Str → Option (Str × Str)
  | [] => none
  | c :: t =>
    if startsWithStr crlf2 (c :: t) then some (acc.reverse, (c :: t).drop 4)
    else splitMarkerAux (c :: acc) t

def splitCrlfAux (cur : Str) : Str → List Str
  | [] => [cur.reverse]
  | [c] => [(c :: cur).reverse]
  | c :: d :: t =>
    if c = '\r' && d = '\n' then cur.reverse :: splitCrlfAux [] t
    else splitCrlfAux (c :: cur) (d :: t)

/-- `header_text.split("\r\n")`. -/
def splitCrlf (s : Str) : List Str := splitCrlfAux [] s

def splitColon1Aux (acc : Str) : Str → Option (Str × Str)
  | [] => none
  | c :: t => if c = ':' then some (acc.reverse, t) else splitColon1Aux (c :: acc) t

/-- `line.split(":", 1)` when the line contains a colon. -/
def splitColon1 (s : Str) : Option (Str × Str) := splitColon1Aux [] s

/-- `headers[k.strip().lower()] = v.strip()` over the header lines. -/
def collectHeaders : List Str → List (Str × Str)
  | [] => []
  | l :: r =>
    match splitColon1 l with
    | some (k, v) => (pyLower (pyStripWs k), pyStripWs v) :: collectHeaders r
    | none => collectHeaders r

/-- Dictionary lookup where a later insertion overwrites an earlier one. -/
def lookupLast (key : Str) (hs : List (Str × Str)) : Option Str :=
  hs.foldl (fun acc kv => if kv.1 = key then some kv.2 else acc) none

/-- Decimal value of a digit string (most significant first). -/
def decValue (ds : Str) : Nat := ds.foldl (fun a d => 10 * a + digitVal d) 0

/-- Python `int(str)` (whitespace, optional sign, decimal digits). -/
def pyIntParse (s : Str) : Option Int :=
  match pyStripWs s with
  | [] => none
  | c :: t =>
    if c = '-' then
      (if !t.isEmpty && t.all Char.isDigit then some (-(decValue t : Int)) else none)
    else if c = '+' then
      (if !t.isEmpty && t.all Char.isDigit then some ((decValue t : Int)) else none)
    else if (c :: t).all Char.isDigit then some ((decValue (c :: t) : Int))
    else none

/-- After the body loop: `None` unless the accumulated body length equals the
declared length exactly, else `json.loads(body)`. -/
def clFinishBody (len : Int) (body : Str) : CLResult :=
  if (body.length : Int) ≠ len then .bodyIncomplete
  else
    match loads body with
    | some j => .msg j
    | none => .decodeError

/-- The body loop: `while len(body) < length` read `length - len(body)` more
bytes; `""` from a closed stream is EOF; an open stream running dry is the
deadline, after which the length check fails. -/
def clReadBody : Nat → Int → Str → Str → Bool → CLResult × Str
  | 0, len, body, data, _ => (clFinishBody len body, data)
  | fuel + 1, len, body, data, closed =>
    if (body.length : Int) < len then
      match data with
      | [] => ((if closed then .eofBody else clFinishBody len body), [])
      | c :: t =>
        let k := (len - body.length).toNat
        clReadBody fuel len (body ++ (c :: t).take k) ((c :: t).drop k) closed
    else (clFinishBody len body, data)

/-- One whole Content-Length framed read, returning the outcome and the
not-yet-consumed stream suffix. -/
def clRead (data : Str) (closed : Bool) : CLResult × Str :=
  match clReadHeaders [] data closed with
  | .error e => (e, [])
  | .ok (buf, rest) =>
    match splitMarkerAux [] buf with
    | none => (.headerTimeout, rest)
    | some (header_text, remainder) =>
      let hdrs := collectHeaders (splitCrlf header_text)
      match (match lookupLast (("content-length").toList) hdrs with
             | some v => pyIntParse v
             | none => some 0) with
      | none => (.badLength, rest)
      | some len => clReadBody (rest.length + 1) len remainder rest closed

def encodeCL (payload : Json) : Str :=
  ("Content-Length: ").toList ++ natDigits (dumpsJson payload).length ++
    ('\r' :: '\n' :: '\r' :: '\n' :: dumpsJson payload)

/-- `WorkingPyMCPClient._send_request`: write the framed payload, then decode
exactly one framed response (any `id`); `None` on every failure. -/
def send_request_cl (payload : Json) (data : Str) (closed : Bool) :
    Option Json × Str :=
  match clRead data closed with
  | (.msg j, rest) => (some j, rest)
  | (_, rest) => (none, rest)

/-! ## `SimplePyMCPClient._send_cl_request`
Header lines via `readline`, `Content-Length` lookup, then `read(length)` and
`json.loads` of whatever came back — with no length re-check.  Modelled over a
closed stream (the blocking reads return what the pipe still holds). -/

def pyRstripCrNl (s : Str) : Str :=
  (s.reverse.dropWhile (fun c => c = '\r' || c = '\n')).reverse

def pyReadlineClosed (data : Str) : Str × Str :=
  match splitFirstNlAux [] data with
  | some (l, rest) => (l, rest)
  | none => (data, [])

def simpleHeaderLoop : Nat → List (Str × Str) → Str → Option (List (Str × Str) × Str)
  | 0, _, _ => none
  | fuel + 1, hdrs, data =>
    match pyReadlineClosed data with
    | ([], _) => none
    | (line, rest) =>
      let l2 := pyRstripCrNl line
      if l2 = [] then some (hdrs, rest)
      else
        match splitColon1 l2 with
        | some (k, v) => simpleHeaderLoop fuel (hdrs ++ [(pyLower (pyStripWs k), pyStripWs v)]) rest
        | none => simpleHeaderLoop fuel hdrs rest

/-- `SimplePyMCPClient._send_cl_request` read side: whatever `read(length)`
returns is handed to `json.loads`; a truncated stream yields a shorter body
with no complaint from the framing layer. -/
def simple_send_cl_request (data : Str) : Option Json :=
  match simpleHeaderLoop (data.length + 1) [] data with
  | none => none
  | some (hdrs, rest) =>
    match (match lookupLast (("content-length").toList) hdrs with
           | some v => pyIntParse v
           | none => some 0) with
    | none => none
    | some len =>
      if len = 0 then none
      else loads (rest.take len.toNat)

/-! ## `WorkingPyMCPClient.connect`
Candidate protocol versions in descending recency order, a final attempt with
no version field, one `initialize` request per candidate, stop at the first
response that is truthy and contains `"result"`. -/

def lookupField (key : Str) : List (Str × Json) → Option Json
  | [] => none
  | (k, v) :: r => if k = key then some v else lookupField key r

def jsonLookup (key : Str) : Json → Option Json
  | .obj fs => lookupField key fs
  | _ => none

def pyTruthyJson : Json → Bool
  | .null => false
  | .bool b => b
  | .num n => !(n == 0)
  | .str s => !s.isEmpty
  | .arr xs => !xs.isEmpty
  | .obj fs => !fs.isEmpty

/-- Python `needle in resp` for a decoded JSON value; `none` models the
`TypeError` raised on non-container values. -/
def pyContains (needle : Str) : Json → Option Bool
  | .obj fs => some (fs.any (fun kv => kv.1 = needle))
  | .arr xs => some (xs.any (fun x => match x with | .str s => s = needle | _ => false))
  | .str s => some (pyInStr needle s)
  | .null => none
  | .bool _ => none
  | .num _ => none

def mkInitParams (v : Option Str) : Json :=
  .obj ([(("capabilities").toList, .obj []),
         (("clientInfo").toList,
          .obj [(("name").toList, .str (("manual-py-client").toList)),
                (("version").toList, .str (("1.0.0").toList))])] ++
        (match v with
         | some s => [(("protocolVersion").toList, .str s)]
         | none => []))

def mkInitReq (rid : Int) (v : Option Str) : Json :=
  .obj [(("jsonrpc").toList, .str (("2.0").toList)),
        (("id").toList, .num rid),
        (("method").toList, .str (("initialize").toList)),
        (("params").toList, mkInitParams v)]

def candidateVersions : List (Option Str) :=
  [some (("2024-11-05").toList), some (("2024-08-19").toList),
   some (("2024-07-01").toList), some (("2024-06-01").toList), none]

inductive ConnectOutcome where
  | ok (negotiated : Option Str) (attempts : List (Option Str)) : ConnectOutcome
  | failed (lastResp : Option Json) (stderrTail : Str)
      (attempts : List (Option Str)) : ConnectOutcome
  | crashed (attempts : List (Option Str)) : ConnectOutcome

/-- The `for v in versions` loop of `connect`: one `initialize` per candidate,
`break` on the first response that is truthy and contains `"result"`; after
exhaustion the last response is surfaced together with captured stderr. -/
def connectLoop (stderrData : Str) :
    List (Option Str) → Int → Str → Bool → Option Json → List (Option Str) →
      ConnectOutcome
  | [], _, _, _, lastResp, attempts => .failed lastResp stderrData attempts
  | v :: vs, rid, data, closed, _, attempts =>
    match send_request_cl (mkInitReq rid v) data closed with
    | (none, data2) => connectLoop stderrData vs (rid + 1) data2 closed none (attempts ++ [v])
    | (some j, data2) =>
      if pyTruthyJson j then
        match pyContains (("result").toList) j with
        | none => .crashed (attempts ++ [v])
        | some true => .ok v (attempts ++ [v])
        | some false =>
          connectLoop stderrData vs (rid + 1) data2 closed (some j) (attempts ++ [v])
      else connectLoop stderrData vs (rid + 1) data2 closed (some j) (attempts ++ [v])

/-- `WorkingPyMCPClient.connect` over a response stream and captured stderr. -/
def connectModel (stderrData : Str) (data : Str) (closed : Bool) : ConnectOutcome :=
  connectLoop stderrData candidateVersions 1 data closed none []

/-! ## Basic lemmas: substrings, whitespace, digits -/

theorem takeWhile_append_of_all {p : Char → Bool} (xs ys : Str) (h : xs.all p = true) :
    (xs ++ ys).takeWhile p = xs ++ ys.takeWhile p := by
  induction xs with
  | nil => simp
  | cons c t ih =>
    simp only [List.all_cons, Bool.and_eq_true] at h
    simp [List.takeWhile_cons, h.1, ih h.2]

theorem dropWhile_append_of_all {p : Char → Bool} (xs ys : Str) (h : xs.all p = true) :
    (xs ++ ys).dropWhile p = ys.dropWhile p := by
  induction xs with
  | nil => simp
  | cons c t ih =>
    simp only [List.all_cons, Bool.and_eq_true] at h
    simp [List.dropWhile_cons, h.1, ih h.2]

theorem dropWhile_cons_of_neg {p : Char → Bool} (c : Char) (t : Str) (h : p c = false) :
    (c :: t).dropWhile p = c :: t := by
  simp [List.dropWhile_cons, h]

theorem startsWithStr_iff (n : Str) : ∀ h : Str, startsWithStr n h = true ↔ ∃ t, h = n ++ t := by
  induction n with
  | nil => intro h; simp [startsWithStr]
  | cons c nt ih =>
    intro h
    cases h with
    | nil =>
      simp only [startsWithStr]
      constructor
      · intro hf; exact absurd hf (by simp)
      · rintro ⟨t, ht⟩; exact absurd ht (by simp)
    | cons d ht =>
      simp only [startsWithStr, Bool.and_eq_true, decide_eq_true_eq, ih]
      constructor
      · rintro ⟨rfl, t, rfl⟩; exact ⟨t, rfl⟩
      · rintro ⟨t, ht2⟩
        rw [List.cons_append] at ht2
        obtain ⟨h1, h2⟩ := List.cons.inj ht2
        exact ⟨h1.symm, t, h2⟩

theorem pyInStr_iff (n : Str) : ∀ h : Str, pyInStr n h = true ↔ ∃ a b, h = a ++ n ++ b := by
  intro h
  induction h with
  | nil =>
    simp only [pyInStr, startsWithStr_iff]
    constructor
    · rintro ⟨t, ht⟩
      rcases List.append_eq_nil.mp ht.symm with ⟨rfl, rfl⟩
      exact ⟨[], [], rfl⟩
    · rintro ⟨a, b, hab⟩
      rcases List.append_eq_nil.mp hab.symm with ⟨h1, rfl⟩
      rcases List.append_eq_nil.mp h1 with ⟨rfl, rfl⟩
      exact ⟨[], rfl⟩
  | cons d t ih =>
    simp only [pyInStr, Bool.or_eq_true, startsWithStr_iff, ih]
    constructor
    · rintro (⟨b, hb⟩ | ⟨a, b, hab⟩)
      · exact ⟨[], b, by simpa using hb⟩
      · exact ⟨d :: a, b, by simp [hab]⟩
    · rintro ⟨a, b, hab⟩
      cases a with
      | nil => exact Or.inl ⟨b, by simpa using hab⟩
      | cons x xs =>
        rw [List.cons_append, List.cons_append] at hab
        obtain ⟨rfl, h2⟩ := List.cons.inj hab
        exact Or.inr ⟨xs, b, by simpa using h2⟩

theorem marker_count_nl (s : Str) (h : pyInStr crlf2 s = true) : 2 ≤ s.count '\n' := by
  obtain ⟨a, b, rfl⟩ := (pyInStr_iff _ s).mp h
  have h2 : crlf2.count '\n' = 2 := by decide
  simp [List.count_append, h2]
  omega

theorem no_marker_of_count (s : Str) (h : s.count '\n' < 2) : pyInStr crlf2 s = false := by
  cases hc : pyInStr crlf2 s with
  | false => rfl
  | true => exact absurd (marker_count_nl s hc) (by omega)

theorem isDigit_ne {c : Char} (x : Char) (h : c.isDigit = true) (hx : x.isDigit = false) :
    c ≠ x := by
  intro e; rw [e] at h; rw [h] at hx; cases hx

theorem digitChar_props : ∀ d, d < 10 →
    (digitChar d).isDigit = true ∧ digitVal (digitChar d) = d ∧
      pySpace (digitChar d) = false ∧ jsonWs (digitChar d) = false := by decide

theorem digitChar_ne_zero : ∀ d, d < 10 → 1 ≤ d → digitChar d ≠ '0' := by decide

theorem digitChar_ne_minus : ∀ d, d < 10 → digitChar d ≠ '-' := by decide

theorem natDigitsF_spec : ∀ f n, n < f →
    natDigitsF f n ≠ [] ∧ (natDigitsF f n).all Char.isDigit = true ∧
      ∀ acc, (natDigitsF f n).foldl (fun a d => 10 * a + digitVal d) acc =
        acc * 10 ^ (natDigitsF f n).length + n := by
  intro f
  induction f with
  | zero => intro n h; omega
  | succ f ih =>
    intro n h
    by_cases h10 : n < 10
    · refine ⟨by simp [natDigitsF, h10], ?_, ?_⟩
      · simp [natDigitsF, h10, (digitChar_props n h10).1]
      · intro acc
        simp only [natDigitsF, if_pos h10, List.foldl_cons, List.foldl_nil,
          (digitChar_props n h10).2.1, List.length_cons, List.length_nil]
        rw [pow_one]
        omega
    · have hdiv : n / 10 < f := by omega
      obtain ⟨hne, hall, hfold⟩ := ih (n / 10) hdiv
      have hmod : n % 10 < 10 := by omega
      refine ⟨by simp [natDigitsF, h10], ?_, ?_⟩
      · simp [natDigitsF, h10, List.all_append, hall, (digitChar_props _ hmod).1]
      · intro acc
        simp only [natDigitsF, if_neg h10, List.foldl_append, List.foldl_cons, List.foldl_nil,
          hfold, List.length_append, List.length_cons, List.length_nil,
          (digitChar_props _ hmod).2.1]
        have hp : 10 ^ ((natDigitsF f (n / 10)).length + (0 + 1)) =
            10 ^ (natDigitsF f (n / 10)).length * 10 := by ring
        have hnm : n % 10 + 10 * (n / 10) = n := Nat.mod_add_div n 10
        rw [hp]
        set L := (natDigitsF f (n / 10)).length
        ring_nf
        omega

theorem natDigitsF_head : ∀ f n, n < f →
    ∃ d t, natDigitsF f n = digitChar d :: t ∧ d < 10 ∧ (1 ≤ n → 1 ≤ d) := by
  intro f
  induction f with
  | zero => intro n h; omega
  | succ f ih =>
    intro n h
    by_cases h10 : n < 10
    · exact ⟨n, [], by simp [natDigitsF, h10], h10, fun h1 => h1⟩
    · have hdiv : n / 10 < f := by omega
      obtain ⟨d, t, heq, hd, hpos⟩ := ih (n / 10) hdiv
      exact ⟨d, t ++ [digitChar (n % 10)], by simp [natDigitsF, h10, heq], hd,
        fun _ => hpos (by omega)⟩

theorem natDigitsF_last : ∀ f n, n < f →
    ∃ ys d, natDigitsF f n = ys ++ [digitChar d] ∧ d < 10 := by
  intro f
  induction f with
  | zero => intro n h; omega
  | succ f ih =>
    intro n h
    by_cases h10 : n < 10
    · exact ⟨[], n, by simp [natDigitsF, h10], h10⟩
    · exact ⟨natDigitsF f (n / 10), n % 10, by simp [natDigitsF, h10], by omega⟩

theorem natDigits_ne_nil (n : Nat) : natDigits n ≠ [] :=
  (natDigitsF_spec (n + 1) n (by omega)).1

theorem natDigits_all (n : Nat) : (natDigits n).all Char.isDigit = true :=
  (natDigitsF_spec (n + 1) n (by omega)).2.1

theorem natDigits_val (n : Nat) :
    (natDigits n).foldl (fun a d => 10 * a + digitVal d) 0 = n := by
  have hv := (natDigitsF_spec (n + 1) n (by omega)).2.2 0
  simpa using hv

def noDigitHead : Str → Bool
  | [] => true
  | c :: _ => !c.isDigit

theorem parseUInt_natDigits (n : Nat) (rest : Str) (h : noDigitHead rest = true) :
    parseUInt (natDigits n ++ rest) = some (n, rest) := by
  have hrt : rest.takeWhile Char.isDigit = [] := by
    cases rest with
    | nil => rfl
    | cons c t =>
      simp only [noDigitHead, Bool.not_eq_true'] at h
      simp [List.takeWhile_cons, h]
  have hrd : rest.dropWhile Char.isDigit = rest := by
    cases rest with
    | nil => rfl
    | cons c t =>
      simp only [noDigitHead, Bool.not_eq_true'] at h
      simp [List.dropWhile_cons, h]
  have htake : (natDigits n ++ rest).takeWhile Char.isDigit = natDigits n := by
    rw [takeWhile_append_of_all _ _ (natDigits_all n), hrt, List.append_nil]
  have hdrop : (natDigits n ++ rest).dropWhile Char.isDigit = rest := by
    rw [dropWhile_append_of_all _ _ (natDigits_all n), hrd]
  by_cases h0 : n = 0
  · subst h0
    have h00 : natDigits 0 = ['0'] := by decide
    rw [h00]
    simp [parseUInt]
  · obtain ⟨d, t, heq, hd, hpos⟩ := natDigitsF_head (n + 1) n (by omega)
    have heq2 : natDigits n = digitChar d :: t := heq
    have hd1 : 1 ≤ d := hpos (by omega)
    have hne0 : digitChar d ≠ '0' := digitChar_ne_zero d hd hd1
    have hdig : (digitChar d).isDigit = true := (digitChar_props d hd).1
    have hcons : natDigits n ++ rest = digitChar d :: (t ++ rest) := by
      rw [heq2, List.cons_append]
    rw [hcons]
    simp only [parseUInt, if_neg hne0, hdig, if_true]
    rw [← hcons, htake, hdrop, natDigits_val]

theorem parseNumTok_intRepr (n : Int) (rest : Str) (h : noDigitHead rest = true) :
    parseNumTok (intRepr n ++ rest) = some (n, rest) := by
  by_cases hneg : n < 0
  · have habs : -((n.natAbs : Nat) : Int) = n := by omega
    rw [intRepr, if_pos hneg, List.cons_append]
    simp [parseNumTok, parseUInt_natDigits _ _ h]
    rw [abs_of_neg hneg, neg_neg]
  · have habs : ((n.toNat : Nat) : Int) = n := by omega
    obtain ⟨d, t, heq, hd, _⟩ := natDigitsF_head (n.toNat + 1) n.toNat (by omega)
    have heq2 : natDigits n.toNat = digitChar d :: t := heq
    have hnm : digitChar d ≠ '-' := digitChar_ne_minus d hd
    have hcons : natDigits n.toNat ++ rest = digitChar d :: (t ++ rest) := by
      rw [heq2, List.cons_append]
    rw [intRepr, if_neg hneg, hcons]
    simp only [parseNumTok, if_neg hnm]
    rw [← hcons, parseUInt_natDigits _ _ h]
    simp [habs]

/-! ## String escaping round trip -/

theorem hexVal_hexDig : ∀ d, d < 16 → hexVal (hexDigChar d) = some d := by decide

theorem parseStringBody_escape : ∀ s, asciiStr s = true → ∀ rest,
    parseStringBody (escapeStr s ++ '"' :: rest) = some (s, rest) := by
  intro s
  induction s with
  | nil =>
    intro _ rest
    show parseStringBody ('"' :: rest) = some ([], rest)
    unfold parseStringBody
    simp
  | cons c t ih =>
    intro hascii rest
    simp only [asciiStr, List.all_cons, Bool.and_eq_true, decide_eq_true_eq] at hascii
    obtain ⟨hc, ht⟩ := hascii
    have iht := ih ht rest
    by_cases h1 : c = '"'
    · subst h1
      show parseStringBody ('\\' :: '"' :: (escapeStr t ++ '"' :: rest)) = _
      unfold parseStringBody
      simp [escShort, iht]
    · by_cases h2 : c = '\\'
      · subst h2
        show parseStringBody ('\\' :: '\\' :: (escapeStr t ++ '"' :: rest)) = _
        unfold parseStringBody
        simp [escShort, iht]
      · by_cases h3 : c = '\n'
        · subst h3
          show parseStringBody ('\\' :: 'n' :: (escapeStr t ++ '"' :: rest)) = _
          unfold parseStringBody
          simp [escShort, iht]
        · by_cases h4 : c = '\r'
          · subst h4
            show parseStringBody ('\\' :: 'r' :: (escapeStr t ++ '"' :: rest)) = _
            unfold parseStringBody
            simp [escShort, iht]
          · by_cases h5 : c = '\t'
            · subst h5
              show parseStringBody ('\\' :: 't' :: (escapeStr t ++ '"' :: rest)) = _
              unfold parseStringBody
              simp [escShort, iht]
            · by_cases h6 : c = Char.ofNat 8
              · subst h6
                show parseStringBody ('\\' :: 'b' :: (escapeStr t ++ '"' :: rest)) = _
                unfold parseStringBody
                simp [escShort, iht]
              · by_cases h7 : c = Char.ofNat 12
                · subst h7
                  show parseStringBody ('\\' :: 'f' :: (escapeStr t ++ '"' :: rest)) = _
                  unfold parseStringBody
                  simp [escShort, iht]
                · by_cases h8 : c.toNat < 32 ∨ 126 < c.toNat
                  · have e1 : c.toNat / 4096 % 16 < 16 := Nat.mod_lt _ (by omega)
                    have e2 : c.toNat / 256 % 16 < 16 := Nat.mod_lt _ (by omega)
                    have e3 : c.toNat / 16 % 16 < 16 := Nat.mod_lt _ (by omega)
                    have e4 : c.toNat % 16 < 16 := Nat.mod_lt _ (by omega)
                    have hsum : 4096 * (c.toNat / 4096 % 16) + 256 * (c.toNat / 256 % 16) +
                        16 * (c.toNat / 16 % 16) + c.toNat % 16 = c.toNat := by omega
                    simp only [escapeStr, escapeChar, if_neg h1, if_neg h2, if_neg h3,
                      if_neg h4, if_neg h5, if_neg h6, if_neg h7, if_pos h8,
                      List.cons_append, List.append_assoc]
                    unfold parseStringBody
                    simp [hexVal_hexDig _ e1, hexVal_hexDig _ e2,
                      hexVal_hexDig _ e3, hexVal_hexDig _ e4, hsum, Char.ofNat_toNat, iht]
                  · have h32 : ¬(c.toNat < 32) := by omega
                    simp only [escapeStr, escapeChar, if_neg h1, if_neg h2, if_neg h3,
                      if_neg h4, if_neg h5, if_neg h6, if_neg h7, if_neg h8,
                      List.cons_append, List.append_assoc, List.nil_append]
                    unfold parseStringBody
                    simp [h1, h2, h32, iht]

/-! ## Shape facts about `json.dumps` output -/

theorem dumpsList_cons : ∀ (r : List Json) (x : Json),
    dumpsList (x :: r) = dumpsJson x ++ dumpsListTail r := by
  intro r
  induction r with
  | nil => intro x; simp [dumpsList, dumpsListTail]
  | cons y r2 ih => intro x; simp [dumpsList, dumpsListTail, ih y]

theorem dumpsFields_cons : ∀ (r : List (Str × Json)) (k : Str) (v : Json),
    dumpsFields ((k, v) :: r) = dumpsField k v ++ dumpsFieldsTail r := by
  intro r
  induction r with
  | nil => intro k v; simp [dumpsFields, dumpsFieldsTail, dumpsField]
  | cons p r2 ih =>
    intro k v
    obtain ⟨k2, v2⟩ := p
    simp [dumpsFields, dumpsFieldsTail, dumpsField, ih k2 v2]

theorem digitChar_head_props : ∀ d, d < 10 →
    jsonWs (digitChar d) = false ∧ pySpace (digitChar d) = false ∧
      digitChar d ≠ ']' ∧ digitChar d ≠ '}' := by decide

theorem digitChar_not_kw : ∀ d, d < 10 →
    digitChar d ≠ 'n' ∧ digitChar d ≠ 't' ∧ digitChar d ≠ 'f' ∧ digitChar d ≠ '"' ∧
      digitChar d ≠ '[' ∧ digitChar d ≠ '\x7b' := by decide

theorem intRepr_head (n : Int) : ∃ c t, intRepr n = c :: t ∧
    jsonWs c = false ∧ pySpace c = false ∧ c ≠ ']' ∧ c ≠ '}' ∧
      (c = '-' ∨ c.isDigit = true) ∧ c ≠ 'n' ∧ c ≠ 't' ∧ c ≠ 'f' ∧ c ≠ '"' ∧
      c ≠ '[' ∧ c ≠ '\x7b' := by
  by_cases hneg : n < 0
  · exact ⟨'-', natDigits n.natAbs, by rw [intRepr, if_pos hneg], by decide, by decide,
      by decide, by decide, Or.inl rfl, by decide, by decide, by decide, by decide,
      by decide, by decide⟩
  · obtain ⟨d, t, heq, hd, _⟩ := natDigitsF_head (n.toNat + 1) n.toNat (by omega)
    obtain ⟨q1, q2, q3, q4⟩ := digitChar_head_props d hd
    obtain ⟨w1, w2, w3, w4, w5, w6⟩ := digitChar_not_kw d hd
    exact ⟨digitChar d, t, by rw [intRepr, if_neg hneg]; exact heq, q1, q2, q3, q4,
      Or.inr (digitChar_props d hd).1, w1, w2, w3, w4, w5, w6⟩

theorem dumpsJson_head (v : Json) : ∃ c t, dumpsJson v = c :: t ∧
    jsonWs c = false ∧ pySpace c = false ∧ c ≠ ']' ∧ c ≠ '}' := by
  cases v with
  | null => exact ⟨'n', _, rfl, by decide, by decide, by decide, by decide⟩
  | bool b =>
    cases b with
    | true => exact ⟨'t', _, rfl, by decide, by decide, by decide, by decide⟩
    | false => exact ⟨'f', _, rfl, by decide, by decide, by decide, by decide⟩
  | num n =>
    obtain ⟨c, t, heq, h1, h2, h3, h4, _⟩ := intRepr_head n
    exact ⟨c, t, heq, h1, h2, h3, h4⟩
  | str s => exact ⟨'"', _, rfl, by decide, by decide, by decide, by decide⟩
  | arr xs => exact ⟨'[', _, rfl, by decide, by decide, by decide, by decide⟩
  | obj fs => exact ⟨Char.ofNat 123, _, rfl, by decide, by decide, by decide, by decide⟩

theorem intRepr_last (n : Int) : ∃ c t, (intRepr n).reverse = c :: t ∧ pySpace c = false := by
  by_cases hneg : n < 0
  · obtain ⟨ys, d, heq, hd⟩ := natDigitsF_last (n.natAbs + 1) n.natAbs (by omega)
    refine ⟨digitChar d, ys.reverse ++ ['-'], ?_, (digitChar_head_props d hd).2.1⟩
    rw [intRepr, if_pos hneg, show (natDigits n.natAbs : Str) = ys ++ [digitChar d] from heq]
    simp
  · obtain ⟨ys, d, heq, hd⟩ := natDigitsF_last (n.toNat + 1) n.toNat (by omega)
    refine ⟨digitChar d, ys.reverse, ?_, (digitChar_head_props d hd).2.1⟩
    rw [intRepr, if_neg hneg, show (natDigits n.toNat : Str) = ys ++ [digitChar d] from heq]
    simp

theorem dumpsJson_last (v : Json) : ∃ c t, (dumpsJson v).reverse = c :: t ∧ pySpace c = false := by
  cases v with
  | null => exact ⟨'l', ['l', 'u', 'n'], by decide, by decide⟩
  | bool b =>
    cases b with
    | true => exact ⟨'e', ['u', 'r', 't'], by decide, by decide⟩
    | false => exact ⟨'e', ['s', 'l', 'a', 'f'], by decide, by decide⟩
  | num n => exact intRepr_last n
  | str s =>
    refine ⟨'"', (escapeStr s).reverse ++ ['"'], ?_, by decide⟩
    show ('"' :: (escapeStr s ++ ['"'])).reverse = _
    simp
  | arr xs =>
    refine ⟨']', (dumpsList xs).reverse ++ ['['], ?_, by decide⟩
    show ('[' :: (dumpsList xs ++ [']'])).reverse = _
    simp
  | obj fs =>
    refine ⟨'}', (dumpsFields fs).reverse ++ [Char.ofNat 123], ?_, by decide⟩
    show (Char.ofNat 123 :: (dumpsFields fs ++ ['}'])).reverse = _
    simp

theorem dumpsJson_ne_nil (v : Json) : dumpsJson v ≠ [] := by
  obtain ⟨c, t, heq, _⟩ := dumpsJson_head v
  simp [heq]

theorem escapeChar_no_nl (c : Char) : '\n' ∉ escapeChar c := by
  unfold escapeChar
  by_cases h1 : c = '"'
  · simp [h1]
  by_cases h2 : c = '\\'
  · simp [h1, h2]
  by_cases h3 : c = '\n'
  · simp [h1, h2, h3]
  by_cases h4 : c = '\r'
  · simp [h1, h2, h3, h4]
  by_cases h5 : c = '\t'
  · simp [h1, h2, h3, h4, h5]
  by_cases h6 : c = Char.ofNat 8
  · simp [h1, h2, h3, h4, h5, h6]
  by_cases h7 : c = Char.ofNat 12
  · simp [h1, h2, h3, h4, h5, h6, h7]
  by_cases h8 : c.toNat < 32 ∨ 126 < c.toNat
  · have hx : ∀ d, d < 16 → ¬('\n' = hexDigChar d) := by decide
    have k1 : c.toNat / 4096 % 16 < 16 := Nat.mod_lt _ (by omega)
    have k2 : c.toNat / 256 % 16 < 16 := Nat.mod_lt _ (by omega)
    have k3 : c.toNat / 16 % 16 < 16 := Nat.mod_lt _ (by omega)
    have k4 : c.toNat % 16 < 16 := Nat.mod_lt _ (by omega)
    simp only [if_neg h1, if_neg h2, if_neg h3, if_neg h4, if_neg h5, if_neg h6,
      if_neg h7, if_pos h8]
    intro hmem
    rcases List.mem_cons.mp hmem with h | h
    · exact absurd h (by decide)
    rcases List.mem_cons.mp h with h | h
    · exact absurd h (by decide)
    rcases List.mem_cons.mp h with h | h
    · exact hx _ k1 h
    rcases List.mem_cons.mp h with h | h
    · exact hx _ k2 h
    rcases List.mem_cons.mp h with h | h
    · exact hx _ k3 h
    rcases List.mem_cons.mp h with h | h
    · exact hx _ k4 h
    · exact absurd h (by simp)
  · simp only [if_neg h1, if_neg h2, if_neg h3, if_neg h4, if_neg h5, if_neg h6,
      if_neg h7, if_neg h8]
    intro hmem
    have he := List.mem_singleton.mp hmem
    exact h8 (Or.inl (he ▸ (by decide : ('\n').toNat < 32)))

theorem escapeStr_no_nl (s : Str) : '\n' ∉ escapeStr s := by
  induction s with
  | nil => simp [escapeStr]
  | cons c t ih =>
    simp only [escapeStr, List.mem_append]
    rintro (h | h)
    · exact escapeChar_no_nl c h
    · exact ih h

theorem intRepr_no_nl (n : Int) : '\n' ∉ intRepr n := by
  have hall : ∀ m : Nat, '\n' ∉ natDigits m := by
    intro m hmem
    have h := natDigits_all m
    rw [List.all_eq_true] at h
    have hd := h _ hmem
    exact absurd hd (by decide)
  unfold intRepr
  split
  · intro hmem
    rcases List.mem_cons.mp hmem with h | h
    · exact absurd h (by decide)
    · exact hall _ h
  · exact hall _

theorem sizeJ_pos (v : Json) : 1 ≤ sizeJ v := by
  cases v with
  | null => simp [sizeJ]
  | bool b => simp [sizeJ]
  | num n => simp [sizeJ]
  | str s => simp [sizeJ]
  | arr xs => cases xs <;> simp [sizeJ]
  | obj fs => cases fs <;> simp [sizeJ]

theorem sizeL_pos (l : List Json) : 1 ≤ sizeL l := by
  cases l <;> simp [sizeL]

theorem sizeF_pos (fs : List (Str × Json)) : 1 ≤ sizeF fs := by
  cases fs <;> simp [sizeF]

theorem dumps_no_nl : ∀ n,
    (∀ v, sizeJ v ≤ n → '\n' ∉ dumpsJson v) ∧
    (∀ l, sizeL l ≤ n → '\n' ∉ dumpsListTail l) ∧
    (∀ fs, sizeF fs ≤ n → '\n' ∉ dumpsFieldsTail fs) := by
  intro n
  induction n with
  | zero =>
    refine ⟨fun v h => absurd (sizeJ_pos v) (by omega),
      fun l h => absurd (sizeL_pos l) (by omega),
      fun fs h => absurd (sizeF_pos fs) (by omega)⟩
  | succ n ih =>
    obtain ⟨ihv, ihl, ihf⟩ := ih
    have hfield : ∀ (k : Str) (w : Json), sizeJ w ≤ n → '\n' ∉ dumpsField k w := by
      intro k w hw hmem
      rcases List.mem_cons.mp hmem with h | h
      · exact absurd h (by decide)
      rcases List.mem_append.mp h with h2 | h2
      · exact escapeStr_no_nl k h2
      rcases List.mem_cons.mp h2 with h3 | h3
      · exact absurd h3 (by decide)
      rcases List.mem_cons.mp h3 with h4 | h4
      · exact absurd h4 (by decide)
      rcases List.mem_cons.mp h4 with h5 | h5
      · exact absurd h5 (by decide)
      · exact ihv w hw h5
    refine ⟨?_, ?_, ?_⟩
    · intro v hsz
      cases v with
      | null => decide
      | bool b => cases b <;> decide
      | num m => exact intRepr_no_nl m
      | str s =>
        intro hmem
        rcases List.mem_cons.mp hmem with h | h
        · exact absurd h (by decide)
        rcases List.mem_append.mp h with h2 | h2
        · exact escapeStr_no_nl s h2
        · exact absurd (List.mem_singleton.mp h2) (by decide)
      | arr xs =>
        cases xs with
        | nil => decide
        | cons x r =>
          have hx : sizeJ x ≤ n := by
            have := sizeL_pos r
            simp only [sizeJ] at hsz; omega
          have hr : sizeL r ≤ n := by
            have := sizeJ_pos x
            simp only [sizeJ] at hsz; omega
          intro hmem
          rw [show dumpsJson (Json.arr (x :: r)) =
            '[' :: (dumpsList (x :: r) ++ [']']) from rfl, dumpsList_cons] at hmem
          rcases List.mem_cons.mp hmem with h | h
          · exact absurd h (by decide)
          rcases List.mem_append.mp h with h2 | h2
          · rcases List.mem_append.mp h2 with h3 | h3
            · exact ihv x hx h3
            · exact ihl r hr h3
          · exact absurd (List.mem_singleton.mp h2) (by decide)
      | obj fs =>
        cases fs with
        | nil => decide
        | cons p r =>
          obtain ⟨k, w⟩ := p
          have hw : sizeJ w ≤ n := by
            have := sizeF_pos r
            simp only [sizeJ] at hsz; omega
          have hr : sizeF r ≤ n := by
            have := sizeJ_pos w
            simp only [sizeJ] at hsz; omega
          intro hmem
          rw [show dumpsJson (Json.obj ((k, w) :: r)) =
            Char.ofNat 123 :: (dumpsFields ((k, w) :: r) ++ ['}']) from rfl,
            dumpsFields_cons] at hmem
          rcases List.mem_cons.mp hmem with h | h
          · exact absurd h (by decide)
          rcases List.mem_append.mp h with h2 | h2
          · rcases List.mem_append.mp h2 with h3 | h3
            · exact hfield k w hw h3
            · exact ihf r hr h3
          · exact absurd (List.mem_singleton.mp h2) (by decide)
    · intro l hsz
      cases l with
      | nil => decide
      | cons x r =>
        have hx : sizeJ x ≤ n := by
          have := sizeL_pos r
          simp only [sizeL] at hsz; omega
        have hr : sizeL r ≤ n := by
          have := sizeJ_pos x
          simp only [sizeL] at hsz; omega
        intro hmem
        rcases List.mem_cons.mp hmem with h | h
        · exact absurd h (by decide)
        rcases List.mem_cons.mp h with h2 | h2
        · exact absurd h2 (by decide)
        rcases List.mem_append.mp h2 with h3 | h3
        · exact ihv x hx h3
        · exact ihl r hr h3
    · intro fs hsz
      cases fs with
      | nil => decide
      | cons p r =>
        obtain ⟨k, w⟩ := p
        have hw : sizeJ w ≤ n := by
          have := sizeF_pos r
          simp only [sizeF] at hsz; omega
        have hr : sizeF r ≤ n := by
          have := sizeJ_pos w
          simp only [sizeF] at hsz; omega
        intro hmem
        rcases List.mem_cons.mp hmem with h | h
        · exact absurd h (by decide)
        rcases List.mem_cons.mp h with h2 | h2
        · exact absurd h2 (by decide)
        rcases List.mem_append.mp h2 with h3 | h3
        · exact hfield k w hw h3
        · exact ihf r hr h3

theorem dumpsJson_no_nl (v : Json) : '\n' ∉ dumpsJson v :=
  (dumps_no_nl (sizeJ v)).1 v le_rfl

theorem sizeJ_le_dumps : ∀ n,
    (∀ v, sizeJ v ≤ n → sizeJ v ≤ (dumpsJson v).length + 1) ∧
    (∀ l, sizeL l ≤ n → sizeL l ≤ (dumpsListTail l).length + 1) ∧
    (∀ fs, sizeF fs ≤ n → sizeF fs ≤ (dumpsFieldsTail fs).length + 1) := by
  intro n
  induction n with
  | zero =>
    exact ⟨fun v h => absurd (sizeJ_pos v) (by omega),
      fun l h => absurd (sizeL_pos l) (by omega),
      fun fs h => absurd (sizeF_pos fs) (by omega)⟩
  | succ n ih =>
    obtain ⟨ihv, ihl, ihf⟩ := ih
    refine ⟨?_, ?_, ?_⟩
    · intro v hsz
      cases v with
      | null => simp [sizeJ]
      | bool b => simp [sizeJ]
      | num m => simp [sizeJ]
      | str s => simp [sizeJ]
      | arr xs =>
        cases xs with
        | nil => simp [sizeJ]
        | cons x r =>
          have hx : sizeJ x ≤ n := by
            have := sizeL_pos r; simp only [sizeJ] at hsz; omega
          have hr : sizeL r ≤ n := by
            have := sizeJ_pos x; simp only [sizeJ] at hsz; omega
          have e1 := ihv x hx
          have e2 := ihl r hr
          have hshape : dumpsJson (Json.arr (x :: r)) =
              '[' :: (dumpsJson x ++ dumpsListTail r ++ [']']) := by
            show '[' :: (dumpsList (x :: r) ++ [']']) = _
            rw [dumpsList_cons]
          rw [hshape]
          simp only [sizeJ, List.length_cons, List.length_append, List.length_singleton]
          omega
      | obj fs =>
        cases fs with
        | nil => simp [sizeJ]
        | cons p r =>
          obtain ⟨k, w⟩ := p
          have hw : sizeJ w ≤ n := by
            have := sizeF_pos r; simp only [sizeJ] at hsz; omega
          have hr : sizeF r ≤ n := by
            have := sizeJ_pos w; simp only [sizeJ] at hsz; omega
          have e1 := ihv w hw
          have e2 := ihf r hr
          have hshape : dumpsJson (Json.obj ((k, w) :: r)) =
              Char.ofNat 123 ::
                (('"' :: (escapeStr k ++ '"' :: ':' :: ' ' :: dumpsJson w)) ++
                  dumpsFieldsTail r ++ ['}']) := by
            show Char.ofNat 123 :: (dumpsFields ((k, w) :: r) ++ ['}']) = _
            rw [dumpsFields_cons]
            rfl
          rw [hshape]
          simp only [sizeJ, List.length_cons, List.length_append, List.length_singleton]
          omega
    · intro l hsz
      cases l with
      | nil => simp [sizeL, dumpsListTail]
      | cons x r =>
        have hx : sizeJ x ≤ n := by
          have := sizeL_pos r; simp only [sizeL] at hsz; omega
        have hr : sizeL r ≤ n := by
          have := sizeJ_pos x; simp only [sizeL] at hsz; omega
        have e1 := ihv x hx
        have e2 := ihl r hr
        show sizeL (x :: r) ≤ (',' :: ' ' :: (dumpsJson x ++ dumpsListTail r)).length + 1
        simp only [sizeL, List.length_cons, List.length_append]
        omega
    · intro fs hsz
      cases fs with
      | nil => simp [sizeF, dumpsFieldsTail]
      | cons p r =>
        obtain ⟨k, w⟩ := p
        have hw : sizeJ w ≤ n := by
          have := sizeF_pos r; simp only [sizeF] at hsz; omega
        have hr : sizeF r ≤ n := by
          have := sizeJ_pos w; simp only [sizeF] at hsz; omega
        have e1 := ihv w hw
        have e2 := ihf r hr
        show sizeF ((k, w) :: r) ≤
          (',' :: ' ' :: (('"' :: (escapeStr k ++ '"' :: ':' :: ' ' :: dumpsJson w)) ++
            dumpsFieldsTail r)).length + 1
        simp only [sizeF, List.length_cons, List.length_append]
        omega

theorem skipWs_cons_neg (c : Char) (s : Str) (h : jsonWs c = false) :
    skipWs (c :: s) = c :: s := by
  simp [skipWs, List.dropWhile_cons, h]

theorem parseF_ws (fuel : Nat) (m : PMode) (c : Char) (h : jsonWs c = true) (s : Str) :
    parseF fuel m (c :: s) = parseF fuel m s := by
  have hs : skipWs (c :: s) = skipWs s := by simp [skipWs, List.dropWhile_cons, h]
  cases fuel with
  | zero => rfl
  | succ f =>
    cases m with
    | val => unfold parseF; rw [hs]
    | arrTail acc => unfold parseF; rw [hs]
    | objTail acc => unfold parseF; rw [hs]
    | field => unfold parseF; rw [hs]

theorem noDigitHead_listTail (r : List Json) (rest : Str) :
    noDigitHead (dumpsListTail r ++ ']' :: rest) = true := by
  cases r with
  | nil => rfl
  | cons x r2 => rfl

theorem noDigitHead_fieldsTail (r : List (Str × Json)) (rest : Str) :
    noDigitHead (dumpsFieldsTail r ++ '}' :: rest) = true := by
  cases r with
  | nil => rfl
  | cons p r2 => obtain ⟨k, w⟩ := p; rfl

/-- Completeness of the `json.loads` core on `json.dumps` output: with enough
fuel, parsing a serialised wellformed value consumes exactly its rendering. -/
theorem parseF_complete : ∀ fuel,
    (∀ v rest, wfJson v = true → sizeJ v ≤ fuel → noDigitHead rest = true →
      parseF fuel .val (dumpsJson v ++ rest) = some (.v v, rest)) ∧
    (∀ l acc rest, wfList l = true → sizeL l ≤ fuel →
      parseF fuel (.arrTail acc) (dumpsListTail l ++ ']' :: rest) =
        some (.v (.arr (acc ++ l)), rest)) ∧
    (∀ fs acc rest, wfFields fs = true → sizeF fs ≤ fuel →
      parseF fuel (.objTail acc) (dumpsFieldsTail fs ++ '}' :: rest) =
        some (.v (.obj (acc ++ fs)), rest)) ∧
    (∀ k v rest, asciiStr k = true → wfJson v = true → 1 + sizeJ v ≤ fuel →
      noDigitHead rest = true →
      parseF fuel .field (dumpsField k v ++ rest) = some (.kv k v, rest)) := by
  intro fuel
  induction fuel with
  | zero =>
    refine ⟨fun v _ _ hs _ => absurd (sizeJ_pos v) (by omega),
      fun l _ _ _ hs => absurd (sizeL_pos l) (by omega),
      fun fs _ _ _ hs => absurd (sizeF_pos fs) (by omega),
      fun k v _ _ _ hs _ => absurd (sizeJ_pos v) (by omega)⟩
  | succ fuel ih =>
    obtain ⟨ihv, iha, iho, ihf⟩ := ih
    refine ⟨?_, ?_, ?_, ?_⟩
    · intro v rest hwf hsz hrest
      cases v with
      | null => exact rfl
      | bool b => cases b <;> exact rfl
      | num m =>
        obtain ⟨c, t, heq, hW, _, _, _, hnum, k1, k2, k3, k4, k5, k6⟩ := intRepr_head m
        have hcons : dumpsJson (Json.num m) ++ rest = c :: (t ++ rest) := by
          show intRepr m ++ rest = _
          rw [heq, List.cons_append]
        have hnt : parseNumTok (c :: (t ++ rest)) = some (m, rest) := by
          rw [← List.cons_append, ← heq]
          exact parseNumTok_intRepr m rest hrest
        have hb : (decide (c = '-') || c.isDigit) = true := by
          rcases hnum with h | h
          · simp [h]
          · simp [h]
        rw [hcons]
        unfold parseF
        rw [skipWs_cons_neg c _ hW]
        simp [k1, k2, k3, k4, k5, k6, hb, hnt]
      | str s =>
        have hk : asciiStr s = true := hwf
        have hnorm : dumpsJson (Json.str s) ++ rest = '"' :: (escapeStr s ++ '"' :: rest) := by
          show ('"' :: (escapeStr s ++ ['"'])) ++ rest = _
          simp
        rw [hnorm]
        unfold parseF
        rw [skipWs_cons_neg '"' _ (by decide)]
        simp [parseStringBody_escape s hk rest]
      | arr xs =>
        cases xs with
        | nil => exact rfl
        | cons x r =>
          obtain ⟨hwx, hwr⟩ : wfJson x = true ∧ wfList r = true := by
            have h0 : (wfJson x && wfList r) = true := hwf
            simp only [Bool.and_eq_true] at h0
            exact h0
          have hszx : sizeJ x ≤ fuel := by simp only [sizeJ] at hsz; omega
          have hszr : sizeL r ≤ fuel := by simp only [sizeJ] at hsz; omega
          have hx := ihv x (dumpsListTail r ++ ']' :: rest) hwx hszx
            (noDigitHead_listTail r rest)
          have ha := iha r [x] rest hwr hszr
          obtain ⟨c0, t0, heq0, hW0, _, hRB0, _⟩ := dumpsJson_head x
          have hskip : skipWs (dumpsJson x ++ (dumpsListTail r ++ ']' :: rest)) =
              c0 :: (t0 ++ (dumpsListTail r ++ ']' :: rest)) := by
            rw [heq0, List.cons_append]
            exact skipWs_cons_neg c0 _ hW0
          have hnorm : dumpsJson (Json.arr (x :: r)) ++ rest =
              '[' :: (dumpsJson x ++ (dumpsListTail r ++ ']' :: rest)) := by
            show ('[' :: (dumpsList (x :: r) ++ [']'])) ++ rest = _
            rw [dumpsList_cons]
            simp
          rw [hnorm]
          unfold parseF
          rw [skipWs_cons_neg '[' _ (by decide)]
          simp [hskip, hRB0, hx, ha]
      | obj fs =>
        cases fs with
        | nil => exact rfl
        | cons p r =>
          obtain ⟨k, w⟩ := p
          obtain ⟨hak, hww, hwr⟩ :
              asciiStr k = true ∧ wfJson w = true ∧ wfFields r = true := by
            have h0 : (asciiStr k && wfJson w && wfFields r) = true := hwf
            simp only [Bool.and_eq_true] at h0
            exact ⟨h0.1.1, h0.1.2, h0.2⟩
          have hszw : 1 + sizeJ w ≤ fuel := by simp only [sizeJ] at hsz; omega
          have hszr : sizeF r ≤ fuel := by simp only [sizeJ] at hsz; omega
          have hfld := ihf k w (dumpsFieldsTail r ++ '}' :: rest) hak hww hszw
            (noDigitHead_fieldsTail r rest)
          have ho := iho r [(k, w)] rest hwr hszr
          have hskip : skipWs (dumpsField k w ++ (dumpsFieldsTail r ++ '}' :: rest)) =
              '"' :: (escapeStr k ++ '"' :: ':' :: ' ' :: dumpsJson w ++
                (dumpsFieldsTail r ++ '}' :: rest)) := by
            show skipWs ('"' :: (escapeStr k ++ '"' :: ':' :: ' ' :: dumpsJson w ++
              (dumpsFieldsTail r ++ '}' :: rest))) = _
            exact skipWs_cons_neg '"' _ (by decide)
          have hnorm : dumpsJson (Json.obj ((k, w) :: r)) ++ rest =
              '\x7b' :: (dumpsField k w ++ (dumpsFieldsTail r ++ '}' :: rest)) := by
            show ('\x7b' :: (dumpsFields ((k, w) :: r) ++ ['}'])) ++ rest = _
            rw [dumpsFields_cons]
            simp
          rw [hnorm]
          unfold parseF
          rw [skipWs_cons_neg '\x7b' _ (by decide)]
          simp [hskip, hfld, ho]
    · intro l acc rest hwl hszl
      cases l with
      | nil =>
        show parseF (fuel + 1) (.arrTail acc) (']' :: rest) =
          some (.v (.arr (acc ++ [])), rest)
        simp only [List.append_nil]
        exact rfl
      | cons x r =>
        obtain ⟨hwx, hwr⟩ : wfJson x = true ∧ wfList r = true := by
          have h0 : (wfJson x && wfList r) = true := hwl
          simp only [Bool.and_eq_true] at h0
          exact h0
        have hszx : sizeJ x ≤ fuel := by simp only [sizeL] at hszl; omega
        have hszr : sizeL r ≤ fuel := by simp only [sizeL] at hszl; omega
        have hx := ihv x (dumpsListTail r ++ ']' :: rest) hwx hszx
          (noDigitHead_listTail r rest)
        have hvalstep : parseF fuel .val
            (' ' :: (dumpsJson x ++ (dumpsListTail r ++ ']' :: rest))) =
            some (.v x, dumpsListTail r ++ ']' :: rest) := by
          rw [parseF_ws fuel .val ' ' (by decide)]
          rw [← List.append_assoc] at hx ⊢
          exact hx
        have ha := iha r (acc ++ [x]) rest hwr hszr
        have hnorm : dumpsListTail (x :: r) ++ ']' :: rest =
            ',' :: ' ' :: (dumpsJson x ++ (dumpsListTail r ++ ']' :: rest)) := by
          show (',' :: ' ' :: (dumpsJson x ++ dumpsListTail r)) ++ ']' :: rest = _
          simp
        rw [hnorm]
        unfold parseF
        rw [skipWs_cons_neg ',' _ (by decide)]
        simp [hvalstep, ha, List.append_assoc]
    · intro fs acc rest hwfs hszf
      cases fs with
      | nil =>
        show parseF (fuel + 1) (.objTail acc) ('}' :: rest) =
          some (.v (.obj (acc ++ [])), rest)
        simp only [List.append_nil]
        exact rfl
      | cons p r =>
        obtain ⟨k, w⟩ := p
        obtain ⟨hak, hww, hwr⟩ :
            asciiStr k = true ∧ wfJson w = true ∧ wfFields r = true := by
          have h0 : (asciiStr k && wfJson w && wfFields r) = true := hwfs
          simp only [Bool.and_eq_true] at h0
          exact ⟨h0.1.1, h0.1.2, h0.2⟩
        have hszw : 1 + sizeJ w ≤ fuel := by simp only [sizeF] at hszf; omega
        have hszr : sizeF r ≤ fuel := by simp only [sizeF] at hszf; omega
        have hfld := ihf k w (dumpsFieldsTail r ++ '}' :: rest) hak hww hszw
          (noDigitHead_fieldsTail r rest)
        have hfldstep : parseF fuel .field
            (' ' :: (dumpsField k w ++ (dumpsFieldsTail r ++ '}' :: rest))) =
            some (.kv k w, dumpsFieldsTail r ++ '}' :: rest) := by
          rw [parseF_ws fuel .field ' ' (by decide)]
          exact hfld
        have ho := iho r (acc ++ [(k, w)]) rest hwr hszr
        have hnorm : dumpsFieldsTail ((k, w) :: r) ++ '}' :: rest =
            ',' :: ' ' :: (dumpsField k w ++ (dumpsFieldsTail r ++ '}' :: rest)) := by
          show (',' :: ' ' :: (dumpsField k w ++ dumpsFieldsTail r)) ++ '}' :: rest = _
          simp
        rw [hnorm]
        unfold parseF
        rw [skipWs_cons_neg ',' _ (by decide)]
        simp [hfldstep, ho, List.append_assoc]
    · intro k v rest hk hwv hsz hrest
      have hszv : sizeJ v ≤ fuel := by omega
      have hpsb : parseStringBody (escapeStr k ++ '"' :: (':' :: ' ' :: (dumpsJson v ++ rest))) =
          some (k, ':' :: ' ' :: (dumpsJson v ++ rest)) := parseStringBody_escape k hk _
      have hval : parseF fuel .val (' ' :: (dumpsJson v ++ rest)) = some (.v v, rest) := by
        rw [parseF_ws fuel .val ' ' (by decide)]
        exact ihv v rest hwv hszv hrest
      have hnorm : dumpsField k v ++ rest =
          '"' :: (escapeStr k ++ '"' :: (':' :: ' ' :: (dumpsJson v ++ rest))) := by
        show ('"' :: (escapeStr k ++ '"' :: ':' :: ' ' :: dumpsJson v)) ++ rest = _
        simp
      rw [hnorm]
      unfold parseF
      rw [skipWs_cons_neg '"' _ (by decide)]
      simp [hpsb, hval, skipWs, jsonWs, List.dropWhile_cons]

/-- The round trip at the `json` module level: `json.loads(json.dumps(v)) == v`
for wellformed values. -/
theorem loads_dumps (v : Json) (h : wfJson v = true) : loads (dumpsJson v) = some v := by
  have hsz : sizeJ v ≤ (dumpsJson v).length + 1 :=
    (sizeJ_le_dumps (sizeJ v)).1 v le_rfl
  have hp := (parseF_complete ((dumpsJson v).length + 1)).1 v [] h hsz rfl
  rw [List.append_nil] at hp
  unfold loads
  rw [hp]
  rfl

theorem pyStripWs_dumps_nl (v : Json) :
    pyStripWs (dumpsJson v ++ ['\n']) = dumpsJson v := by
  obtain ⟨c, t, heq, _, hP, _, _⟩ := dumpsJson_head v
  obtain ⟨c2, t2, heq2, hP2⟩ := dumpsJson_last v
  unfold pyStripWs
  have h1 : (dumpsJson v ++ ['\n']).dropWhile pySpace = dumpsJson v ++ ['\n'] := by
    rw [heq, List.cons_append]
    exact dropWhile_cons_of_neg c _ hP
  rw [h1]
  have h2 : (dumpsJson v ++ ['\n']).reverse = '\n' :: (dumpsJson v).reverse := by simp
  rw [h2]
  have h3 : ('\n' :: (dumpsJson v).reverse).dropWhile pySpace =
      (dumpsJson v).reverse.dropWhile pySpace := by
    rw [List.dropWhile_cons, if_pos (by decide : pySpace '\n' = true)]
  rw [h3, heq2, dropWhile_cons_of_neg c2 _ hP2, ← heq2, List.reverse_reverse]

theorem splitFirstNlAux_append : ∀ (s : Str), '\n' ∉ s → ∀ (r acc : Str),
    splitFirstNlAux acc (s ++ '\n' :: r) = some (acc.reverse ++ s ++ ['\n'], r) := by
  intro s
  induction s with
  | nil =>
    intro _ r acc
    simp [splitFirstNlAux]
  | cons c t ih =>
    intro hnl r acc
    have hc : ¬(c = '\n') := fun e => hnl (by simp [e])
    have ht : '\n' ∉ t := fun m => hnl (List.mem_cons_of_mem c m)
    rw [List.cons_append]
    simp only [splitFirstNlAux, if_neg hc]
    rw [ih ht r (c :: acc)]
    simp

/-- Decoding the newline-framed encoding of a wellformed message returns that
message, whatever follows on the stream and whether or not it is closed. -/
theorem read_message_encode (j : Json) (hwf : wfJson j = true) (extra : Str)
    (closed : Bool) :
    read_message (dumpsJson j ++ '\n' :: extra) closed = some j := by
  unfold read_message pyReadline
  rw [splitFirstNlAux_append (dumpsJson j) (dumpsJson_no_nl j) extra []]
  have hne : ¬(([] : Str).reverse ++ dumpsJson j ++ ['\n'] = []) := by simp
  simp only [List.reverse_nil, List.nil_append]
  rw [if_neg (by simpa using hne)]
  rw [pyStripWs_dumps_nl j, loads_dumps j hwf]

/-! ## Content-Length decode of an encoded frame -/

theorem startsWithStr_self_append (n t : Str) : startsWithStr n (n ++ t) = true := by
  induction n with
  | nil => rfl
  | cons c m ih => simp [startsWithStr, ih]

theorem clReadHeaders_found (buf : Str) (data : Str) (closed : Bool)
    (h : pyInStr crlf2 buf = true) : clReadHeaders buf data closed = .ok (buf, data) := by
  cases data with
  | nil => simp [clReadHeaders, h]
  | cons c t => simp [clReadHeaders, h]

theorem clReadHeaders_run : ∀ (text : Str) (buf : Str) (rest : Str) (closed : Bool),
    text.count '\n' = 0 → buf.count '\n' = 0 →
    buf.length + text.length + 4 ≤ 8192 →
    clReadHeaders buf (text ++ ('\r' :: '\n' :: '\r' :: '\n' :: rest)) closed =
      .ok ((buf ++ text) ++ crlf2, rest) := by
  intro text
  induction text with
  | nil =>
    intro buf rest closed _ hbuf hlen
    have c0 : pyInStr crlf2 buf = false := no_marker_of_count _ (by omega)
    have c1 : pyInStr crlf2 (buf ++ ['\r']) = false := no_marker_of_count _ (by
      simp [List.count_append]; omega)
    have c2 : pyInStr crlf2 (buf ++ ['\r', '\n']) = false := no_marker_of_count _ (by
      simp [List.count_append]; omega)
    have c3 : pyInStr crlf2 (buf ++ ['\r', '\n', '\r']) = false :=
      no_marker_of_count _ (by simp [List.count_append]; omega)
    have c4 : pyInStr crlf2 (buf ++ ['\r'] ++ ['\n'] ++ ['\r'] ++ ['\n']) = true := by
      refine (pyInStr_iff _ _).mpr ⟨buf, [], ?_⟩
      simp [crlf2]
    have l1 : ¬(8192 < (buf ++ ['\r']).length) := by simp; omega
    have l2 : ¬(8192 < (buf ++ ['\r'] ++ ['\n']).length) := by simp; omega
    have l3 : ¬(8192 < (buf ++ ['\r'] ++ ['\n'] ++ ['\r']).length) := by simp; omega
    have l4 : ¬(8192 < (buf ++ ['\r'] ++ ['\n'] ++ ['\r'] ++ ['\n']).length) := by
      simp; omega
    simp only [List.nil_append]
    rw [clReadHeaders, if_neg (by simp [c0]), if_neg l1]
    rw [clReadHeaders, if_neg (by simp [c1]), if_neg l2]
    rw [clReadHeaders, if_neg (by simp [c2]), if_neg l3]
    rw [clReadHeaders, if_neg (by simp [c3]), if_neg l4]
    rw [clReadHeaders_found _ _ _ c4]
    simp [crlf2]
  | cons c t ih =>
    intro buf rest closed htext hbuf hlen
    have hc : ¬(c = '\n') := by
      intro e
      rw [e, List.count_cons_self] at htext
      omega
    have htt : t.count '\n' = 0 := by
      rw [List.count_cons] at htext
      omega
    have hbc : (buf ++ [c]).count '\n' = 0 := by
      rw [List.count_append, List.count_singleton']
      simp [hbuf, hc]
    have hlc : (buf ++ [c]).length + t.length + 4 ≤ 8192 := by
      simp only [List.length_append, List.length_cons, List.length_nil] at hlen ⊢
      omega
    have c0 : pyInStr crlf2 buf = false := no_marker_of_count _ (by omega)
    have l0 : ¬(8192 < (buf ++ [c]).length) := by
      simp only [List.length_append, List.length_cons, List.length_nil] at hlen ⊢
      omega
    rw [List.cons_append, clReadHeaders, if_neg (by simp [c0]), if_neg l0]
    rw [ih (buf ++ [c]) rest closed htt hbc hlc]
    simp

theorem splitMarkerAux_run : ∀ (text : Str), '\r' ∉ text → ∀ (rest acc : Str),
    splitMarkerAux acc (text ++ crlf2 ++ rest) = some (acc.reverse ++ text, rest) := by
  intro text
  induction text with
  | nil =>
    intro _ rest acc
    have hs : startsWithStr crlf2 ('\r' :: '\n' :: '\r' :: '\n' :: rest) = true :=
      startsWithStr_self_append crlf2 rest
    show splitMarkerAux acc ('\r' :: '\n' :: '\r' :: '\n' :: rest) = _
    rw [splitMarkerAux, if_pos hs]
    simp
  | cons c t ih =>
    intro hmem rest acc
    have hc : ¬('\r' = c) := fun e => hmem (by simp [← e])
    have ht : '\r' ∉ t := fun m => hmem (List.mem_cons_of_mem c m)
    have hsw : startsWithStr crlf2 (c :: (t ++ (crlf2 ++ rest))) = false := by
      show startsWithStr ('\r' :: '\n' :: '\r' :: '\n' :: []) _ = false
      simp [startsWithStr, hc]
    show splitMarkerAux acc (c :: (t ++ crlf2 ++ rest)) = _
    rw [splitMarkerAux, if_neg (by simp [hsw]), ih ht rest (c :: acc)]
    simp

theorem splitCrlfAux_no_cr : ∀ (s : Str), '\r' ∉ s → ∀ cur,
    splitCrlfAux cur s = [cur.reverse ++ s] := by
  intro s
  induction s with
  | nil => intro _ cur; simp [splitCrlfAux]
  | cons c t ih =>
    intro hmem cur
    have hc : ¬(c = '\r') := fun e => hmem (by simp [e])
    have ht : '\r' ∉ t := fun m => hmem (List.mem_cons_of_mem c m)
    cases t with
    | nil => simp [splitCrlfAux]
    | cons d t2 =>
      rw [splitCrlfAux, if_neg (by simp [hc])]
      rw [ih ht (c :: cur)]
      simp

theorem splitColon1Aux_run : ∀ (a : Str), ':' ∉ a → ∀ (b acc : Str),
    splitColon1Aux acc (a ++ ':' :: b) = some (acc.reverse ++ a, b) := by
  intro a
  induction a with
  | nil => intro _ b acc; simp [splitColon1Aux]
  | cons c t ih =>
    intro hmem b acc
    have hc : ¬(c = ':') := fun e => hmem (by simp [e])
    have ht : ':' ∉ t := fun m => hmem (List.mem_cons_of_mem c m)
    rw [List.cons_append, splitColon1Aux, if_neg hc, ih ht b (c :: acc)]
    simp

theorem digitChar_ne_plus : ∀ d, d < 10 → digitChar d ≠ '+' := by decide

theorem natDigits_shape (n : Nat) :
    ∃ d t, natDigits n = digitChar d :: t ∧ d < 10 :=
  (natDigitsF_head (n + 1) n (by omega)).imp
    (fun d h => h.imp (fun t ⟨a, b, _⟩ => ⟨a, b⟩))

theorem pyStripWs_natDigits (n : Nat) : pyStripWs (natDigits n) = natDigits n := by
  obtain ⟨d, t, heq, hd⟩ := natDigits_shape n
  obtain ⟨ys, d2, heq2, hd2⟩ := natDigitsF_last (n + 1) n (by omega)
  have heq2r : (natDigits n).reverse = digitChar d2 :: ys.reverse := by
    rw [show (natDigits n : Str) = ys ++ [digitChar d2] from heq2]
    simp
  unfold pyStripWs
  rw [heq, dropWhile_cons_of_neg _ _ (digitChar_props d hd).2.2.1, ← heq]
  rw [heq2r, dropWhile_cons_of_neg _ _ (digitChar_props d2 hd2).2.2.1, ← heq2r]
  rw [List.reverse_reverse]

theorem pyStripWs_space_natDigits (n : Nat) :
    pyStripWs (' ' :: natDigits n) = natDigits n := by
  obtain ⟨d, t, heq, hd⟩ := natDigits_shape n
  have h1 : (' ' :: natDigits n).dropWhile pySpace = (natDigits n).dropWhile pySpace := by
    rw [List.dropWhile_cons, if_pos (by decide : pySpace ' ' = true)]
  have h2 : (natDigits n).dropWhile pySpace = natDigits n := by
    rw [heq, dropWhile_cons_of_neg _ _ (digitChar_props d hd).2.2.1]
  have h3 := pyStripWs_natDigits n
  unfold pyStripWs at h3 ⊢
  rw [h1, h2]
  rw [h2] at h3
  exact h3

theorem pyIntParse_natDigits (n : Nat) : pyIntParse (natDigits n) = some (n : Int) := by
  obtain ⟨d, t, heq, hd⟩ := natDigits_shape n
  have hval : decValue (digitChar d :: t) = n := by
    rw [show (digitChar d :: t : Str) = natDigits n from heq.symm]
    exact natDigits_val n
  have hall : (digitChar d :: t).all Char.isDigit = true := by
    rw [← heq]; exact natDigits_all n
  unfold pyIntParse
  rw [pyStripWs_natDigits n, heq]
  simp only [if_neg (digitChar_ne_minus d hd), if_neg (digitChar_ne_plus d hd),
    hall, if_true, hval]

theorem clReadBody_exact (j : Json) (hwf : wfJson j = true) (extra : Str) (closed : Bool) :
    ∀ f, 2 ≤ f →
    clReadBody f ((dumpsJson j).length : Int) [] (dumpsJson j ++ extra) closed =
      (.msg j, extra) := by
  intro f hf
  obtain ⟨f2, rfl⟩ : ∃ f2, f = f2 + 2 := ⟨f - 2, by omega⟩
  obtain ⟨c, t, heq, _⟩ := dumpsJson_head j
  have hlen : 1 ≤ (dumpsJson j).length := by rw [heq]; simp
  have hdata : dumpsJson j ++ extra = c :: (t ++ extra) := by rw [heq, List.cons_append]
  have htake : (c :: (t ++ extra)).take (dumpsJson j).length = dumpsJson j := by
    rw [← hdata]
    exact List.take_left (dumpsJson j) extra
  have hdrop : (c :: (t ++ extra)).drop (dumpsJson j).length = extra := by
    rw [← hdata]
    exact List.drop_left (dumpsJson j) extra
  rw [hdata, clReadBody, if_pos (by simp; omega)]
  simp only [List.length_nil, Int.natCast_zero, sub_zero, Int.toNat_natCast,
    htake, hdrop, List.nil_append]
  rw [clReadBody.eq_def]
  simp only [if_neg (lt_irrefl ((dumpsJson j).length : Int))]
  unfold clFinishBody
  rw [if_neg (by simp)]
  rw [loads_dumps j hwf]

/-- If the declared body length exceeds what the stream can still deliver, the
Working client's body loop ends in EOF (closed stream) or in the failed exact
length check after the deadline (open stream) — never in a parsed message. -/
theorem clReadBody_truncated (len : Int) (body data : Str) (closed : Bool) (f : Nat)
    (hshort : (body.length : Int) + data.length < len) (hf : data.length < f) :
    (clReadBody f len body data closed).1 =
      (if closed then CLResult.eofBody else CLResult.bodyIncomplete) := by
  obtain ⟨f2, rfl⟩ : ∃ f2, f = f2 + 1 := ⟨f - 1, by omega⟩
  cases data with
  | nil =>
    have hc1 : (body.length : Int) < len := by
      simp only [List.length_nil, Int.natCast_zero, add_zero] at hshort
      exact hshort
    have hne : (body.length : Int) ≠ len := by omega
    simp only [clReadBody, if_pos hc1]
    cases closed with
    | true => rfl
    | false =>
      simp only [Bool.false_eq_true, if_false]
      unfold clFinishBody
      rw [if_pos hne]
  | cons c t =>
    have hc1 : (body.length : Int) < len := by
      simp only [List.length_cons] at hshort
      omega
    have hbig : (c :: t).length ≤ (len - (body.length : Int)).toNat := by
      simp only [List.length_cons] at hshort ⊢
      omega
    simp only [clReadBody, if_pos hc1, List.take_of_length_le hbig,
      List.drop_of_length_le hbig]
    obtain ⟨f3, rfl⟩ : ∃ f3, f2 = f3 + 1 := ⟨f2 - 1, by
      simp only [List.length_cons] at hf; omega⟩
    have hc2 : ((body ++ c :: t).length : Int) < len := by
      simp only [List.length_append, List.length_cons] at hshort ⊢
      push_cast
      omega
    have hne2 : ((body ++ c :: t).length : Int) ≠ len := by omega
    simp only [clReadBody, if_pos hc2]
    cases closed with
    | true => rfl
    | false =>
      simp only [Bool.false_eq_true, if_false]
      unfold clFinishBody
      rw [if_pos hne2]

theorem natDigits_no_nl (n : Nat) : ('\n') ∉ natDigits n := by
  intro h
  exact absurd (List.all_eq_true.mp (natDigits_all n) _ h) (by decide)

theorem natDigits_no_cr (n : Nat) : ('\r') ∉ natDigits n := by
  intro h
  exact absurd (List.all_eq_true.mp (natDigits_all n) _ h) (by decide)

/-- Round trip of the Content-Length framing: a well-formed frame written by
`_send_request` is decoded back to the same message by the read loop, leaving
exactly the bytes after the frame unread. -/
theorem clRead_encode (j : Json) (hwf : wfJson j = true) (extra : Str) (closed : Bool)
    (hcap : (natDigits (dumpsJson j).length).length ≤ 8172) :
    clRead (encodeCL j ++ extra) closed = (.msg j, extra) := by
  have hnlds : ('\n') ∉ natDigits (dumpsJson j).length := natDigits_no_nl _
  have hcrds : ('\r') ∉ natDigits (dumpsJson j).length := natDigits_no_cr _
  have htext0 :
      (((("Content-Length: ").toList) ++ natDigits (dumpsJson j).length).count '\n') = 0 := by
    rw [List.count_append, List.count_eq_zero.mpr hnlds]
    decide
  have hlen :
      ([] : Str).length +
        ((("Content-Length: ").toList) ++ natDigits (dumpsJson j).length).length + 4 ≤ 8192 := by
    rw [List.length_append]
    have h16 : ((("Content-Length: ").toList)).length = 16 := by decide
    simp only [List.length_nil, h16]
    omega
  have hheaders := clReadHeaders_run
    ((("Content-Length: ").toList) ++ natDigits (dumpsJson j).length)
    [] (dumpsJson j ++ extra) closed htext0 (by decide) hlen
  have hshape : encodeCL j ++ extra =
      ((("Content-Length: ").toList) ++ natDigits (dumpsJson j).length) ++
        ('\r' :: '\n' :: '\r' :: '\n' :: (dumpsJson j ++ extra)) := by
    unfold encodeCL
    simp
  have hcrtext : ('\r') ∉ (("Content-Length: ").toList) ++ natDigits (dumpsJson j).length := by
    intro hm
    rcases List.mem_append.mp hm with h | h
    · exact absurd h (by decide)
    · exact hcrds h
  have hmark := splitMarkerAux_run
    ((("Content-Length: ").toList) ++ natDigits (dumpsJson j).length) hcrtext [] []
  simp only [List.append_nil, List.reverse_nil, List.nil_append] at hmark
  have hcrsplit := splitCrlfAux_no_cr
    ((("Content-Length: ").toList) ++ natDigits (dumpsJson j).length) hcrtext []
  simp only [List.reverse_nil, List.nil_append] at hcrsplit
  have hcolonshape :
      (("Content-Length: ").toList) ++ natDigits (dumpsJson j).length =
        (("Content-Length").toList) ++ ':' :: (' ' :: natDigits (dumpsJson j).length) := by
    rfl
  have hcolon := splitColon1Aux_run (("Content-Length").toList) (by decide)
    (' ' :: natDigits (dumpsJson j).length) []
  simp only [List.reverse_nil, List.nil_append] at hcolon
  have hkey : pyLower (pyStripWs (("Content-Length").toList)) = (("content-length").toList) := by
    decide
  unfold clRead
  rw [hshape, hheaders]
  simp only [List.nil_append]
  rw [hmark]
  simp only []
  unfold splitCrlf
  rw [hcrsplit]
  unfold collectHeaders
  unfold splitColon1
  rw [hcolonshape, hcolon]
  simp only [hkey, pyStripWs_space_natDigits]
  unfold collectHeaders
  unfold lookupLast
  simp only [List.foldl_cons, List.foldl_nil, eq_self_iff_true, if_true]
  rw [pyIntParse_natDigits]
  have hdl : 1 ≤ (dumpsJson j).length :=
    List.length_pos.mpr (dumpsJson_ne_nil j)
  have hf : 2 ≤ (dumpsJson j ++ extra).length + 1 := by
    simp only [List.length_append]
    omega
  exact clReadBody_exact j hwf extra closed _ hf

/-- Inversion: whenever the body loop produces a message, the accumulated body
had exactly the declared length and parsed as JSON. -/
theorem clReadBody_msg_inv (j : Json) : ∀ (f : Nat) (len : Int) (body data : Str)
    (closed : Bool) (rest : Str),
    clReadBody f len body data closed = (.msg j, rest) →
    ∃ final, (final.length : Int) = len ∧ loads final = some j := by
  intro f
  induction f with
  | zero =>
    intro len body data closed rest h
    rw [clReadBody] at h
    unfold clFinishBody at h
    by_cases hl : (body.length : Int) ≠ len
    · rw [if_pos hl] at h
      cases h
    · rw [if_neg hl] at h
      push_neg at hl
      cases hload : loads body with
      | none => rw [hload] at h; cases h
      | some v =>
        rw [hload] at h
        have h1 : CLResult.msg v = CLResult.msg j := congrArg Prod.fst h
        have h3 : v = j := by injection h1
        exact ⟨body, hl, by rw [hload, h3]⟩
  | succ f ih =>
    intro len body data closed rest h
    rw [clReadBody.eq_def] at h
    simp only [] at h
    by_cases hlt : (body.length : Int) < len
    · rw [if_pos hlt] at h
      cases data with
      | nil =>
        cases closed with
        | true => simp at h
        | false =>
          simp only [if_false] at h
          unfold clFinishBody at h
          rw [if_pos (ne_of_lt hlt)] at h
          cases h
      | cons c t =>
        exact ih len _ _ closed rest h
    · rw [if_neg hlt] at h
      unfold clFinishBody at h
      by_cases hl : (body.length : Int) ≠ len
      · rw [if_pos hl] at h
        cases h
      · rw [if_neg hl] at h
        push_neg at hl
        cases hload : loads body with
        | none => rw [hload] at h; cases h
        | some v =>
          rw [hload] at h
          have h1 : CLResult.msg v = CLResult.msg j := congrArg Prod.fst h
          have h3 : v = j := by injection h1
          exact ⟨body, hl, by rw [hload, h3]⟩

/-! ## Shape of every emitted dashboard record -/

theorem takeWhile_all (p : Char → Bool) : ∀ l : Str, (l.takeWhile p).all p = true := by
  intro l
  induction l with
  | nil => rfl
  | cons c t ih =>
    rw [List.takeWhile_cons]
    cases hp : p c with
    | false => rfl
    | true => simp [hp, ih]

theorem matchRowheaderAt_some (s cap : Str) (h : matchRowheaderAt s = some cap) :
    cap ≠ [] := by
  unfold matchRowheaderAt at h
  repeat split at h
  all_goals try simp only [] at h
  all_goals try exact Option.noConfusion h
  all_goals try split at h
  all_goals try exact Option.noConfusion h
  all_goals (injection h with he; subst he; assumption)

theorem matchUrlAt_some (s cap : Str) (h : matchUrlAt s = some cap) :
    cap ≠ [] ∧ cap.all hexDash = true := by
  unfold matchUrlAt at h
  repeat split at h
  all_goals try simp only [] at h
  all_goals try exact Option.noConfusion h
  all_goals try split at h
  all_goals try exact Option.noConfusion h
  all_goals (injection h with he; subst he; exact ⟨by assumption, takeWhile_all hexDash _⟩)

theorem searchRowheader_some : ∀ (s cap : Str), searchRowheader s = some cap → cap ≠ [] := by
  intro s
  induction s with
  | nil => intro cap h; exact Option.noConfusion h
  | cons c t ih =>
    intro cap h
    rw [searchRowheader] at h
    cases hm : matchRowheaderAt (c :: t) with
    | some cap2 =>
      rw [hm] at h
      injection h with he
      exact he ▸ matchRowheaderAt_some _ _ hm
    | none =>
      rw [hm] at h
      exact ih cap h

theorem searchUrl_some : ∀ (s cap : Str), searchUrl s = some cap →
    cap ≠ [] ∧ cap.all hexDash = true := by
  intro s
  induction s with
  | nil => intro cap h; exact Option.noConfusion h
  | cons c t ih =>
    intro cap h
    rw [searchUrl] at h
    cases hm : matchUrlAt (c :: t) with
    | some cap2 =>
      rw [hm] at h
      injection h with he
      exact he ▸ matchUrlAt_some _ _ hm
    | none =>
      rw [hm] at h
      exact ih cap h

theorem lookahead_inv : ∀ (ls : List Str) (nm url : Option Str),
    (∀ n, nm = some n → n ≠ []) →
    (∀ u, url = some u → ∃ id, u = urlOfId id ∧ id ≠ [] ∧ id.all hexDash = true) →
    (∀ n, (lookahead ls nm url).1 = some n → n ≠ []) ∧
    (∀ u, (lookahead ls nm url).2 = some u →
      ∃ id, u = urlOfId id ∧ id ≠ [] ∧ id.all hexDash = true) := by
  intro ls
  induction ls with
  | nil => intro nm url h1 h2; exact ⟨h1, h2⟩
  | cons l rest ih =>
    intro nm url h1 h2
    have hn : ∀ n,
        (match nm with | none => searchRowheader l | some n0 => some n0) = some n →
        n ≠ [] := by
      intro n hn2
      cases nm with
      | none => exact searchRowheader_some l n hn2
      | some n0 =>
        injection hn2 with he
        exact he ▸ h1 n0 rfl
    have hu : ∀ u,
        (match searchUrl l with | some id => some (urlOfId id) | none => url) = some u →
        ∃ id, u = urlOfId id ∧ id ≠ [] ∧ id.all hexDash = true := by
      intro u hu2
      cases hs : searchUrl l with
      | some id =>
        rw [hs] at hu2
        injection hu2 with he
        obtain ⟨hne, hall⟩ := searchUrl_some l id hs
        exact ⟨id, he.symm, hne, hall⟩
      | none =>
        rw [hs] at hu2
        exact h2 u hu2
    rw [lookahead.eq_def]
    simp only []
    split
    · exact ⟨hn, hu⟩
    · exact ih _ _ hn hu

theorem parseStep_some (lines : List Str) (i : Nat) (d : Dash)
    (h : parseStep lines i = some d) :
    d.name ≠ [] ∧ ∃ id, d.url = urlOfId id ∧ id ≠ [] ∧ id.all hexDash = true := by
  unfold parseStep at h
  cases hg : lines.get? i with
  | none => rw [hg] at h; exact Option.noConfusion h
  | some line =>
    rw [hg] at h
    simp only [] at h
    cases hr : rowMatch line with
    | none => rw [hr] at h; exact Option.noConfusion h
    | some row =>
      rw [hr] at h
      simp only [] at h
      have hinv := lookahead_inv (window lines i) none none
        (fun n hn => Option.noConfusion hn) (fun u hu => Option.noConfusion hu)
      cases hl : lookahead (window lines i) none none with
      | mk nm url =>
        rw [hl] at h hinv
        cases nm with
        | none =>
          cases url with
          | none => exact Option.noConfusion h
          | some u => exact Option.noConfusion h
        | some n =>
          cases url with
          | none => exact Option.noConfusion h
          | some u =>
            injection h with he
            subst he
            exact ⟨hinv.1 n rfl, hinv.2 u rfl⟩

/-! ## Tokens of `str.split()` and the rejoined creator -/

theorem splitWsAux_tokens : ∀ (s cur : Str),
    (∀ c ∈ cur, pySpace c = false) →
    ∀ t ∈ splitWsAux cur s, t ≠ [] ∧ t.all (fun c => !pySpace c) = true := by
  intro s
  induction s with
  | nil =>
    intro cur hcur t ht
    rw [splitWsAux.eq_def] at ht
    cases cur with
    | nil =>
      simp only [] at ht
      exact absurd ht (by simp)
    | cons c0 cur2 =>
      simp only [] at ht
      have he : t = (c0 :: cur2).reverse := by simpa using ht
      subst he
      refine ⟨by simp, ?_⟩
      simp only [List.all_eq_true, List.mem_reverse]
      intro x hx
      simp [hcur x hx]
  | cons c s2 ih =>
    intro cur hcur t ht
    rw [splitWsAux.eq_def] at ht
    simp only [] at ht
    by_cases hc : pySpace c = true
    · rw [if_pos hc] at ht
      cases cur with
      | nil =>
        simp only [] at ht
        exact ih [] (by intro x hx; cases hx) t ht
      | cons c0 cur2 =>
        simp only [] at ht
        rcases List.mem_cons.mp ht with he | ht2
        · subst he
          refine ⟨by simp, ?_⟩
          simp only [List.all_eq_true, List.mem_reverse]
          intro x hx
          simp [hcur x hx]
        · exact ih [] (by intro x hx; cases hx) t ht2
    · rw [if_neg hc] at ht
      refine ih (c :: cur) ?_ t ht
      intro x hx
      rcases List.mem_cons.mp hx with he | hx2
      · subst he
        exact Bool.eq_false_iff.mpr hc
      · exact hcur x hx2

theorem splitWs_tokens (s : Str) :
    ∀ t ∈ splitWs s, t ≠ [] ∧ t.all (fun c => !pySpace c) = true :=
  splitWsAux_tokens s [] (by intro x hx; cases hx)

theorem joinSpace_head : ∀ (ts : List Str), ts ≠ [] →
    (∀ x ∈ ts, x ≠ [] ∧ x.all (fun c => !pySpace c) = true) →
    ∃ c r, joinSpace ts = c :: r ∧ pySpace c = false := by
  intro ts
  match ts with
  | [] => intro h; exact absurd rfl h
  | [x] =>
    intro _ hall
    obtain ⟨hne, hx⟩ := hall x (by simp)
    cases x with
    | nil => exact absurd rfl hne
    | cons c r =>
      refine ⟨c, r, rfl, ?_⟩
      have := List.all_eq_true.mp hx c (by simp)
      simpa using this
  | x :: y :: r =>
    intro _ hall
    obtain ⟨hne, hx⟩ := hall x (by simp)
    cases x with
    | nil => exact absurd rfl hne
    | cons c rx =>
      refine ⟨c, rx ++ ' ' :: joinSpace (y :: r), ?_, ?_⟩
      · rw [joinSpace]
        simp
      · have := List.all_eq_true.mp hx c (by simp)
        simpa using this

theorem joinSpace_last : ∀ (ts : List Str), ts ≠ [] →
    (∀ x ∈ ts, x ≠ [] ∧ x.all (fun c => !pySpace c) = true) →
    ∃ c r, (joinSpace ts).reverse = c :: r ∧ pySpace c = false := by
  intro ts
  match ts with
  | [] => intro h; exact absurd rfl h
  | [x] =>
    intro _ hall
    obtain ⟨hne, hx⟩ := hall x (by simp)
    obtain ⟨c, r, hcr⟩ := List.exists_cons_of_ne_nil (by simpa using hne : x.reverse ≠ [])
    refine ⟨c, r, hcr, ?_⟩
    have hc : c ∈ x := by
      rw [← List.mem_reverse, hcr]
      simp
    have := List.all_eq_true.mp hx c hc
    simpa using this
  | x :: y :: r =>
    intro _ hall
    obtain ⟨c, rr, hcr, hc⟩ := joinSpace_last (y :: r) (by simp)
      (by intro z hz; exact hall z (List.mem_cons_of_mem x hz))
    refine ⟨c, rr ++ (' ' :: x.reverse), ?_, hc⟩
    rw [joinSpace]
    · simp only [List.reverse_append, List.reverse_cons]
      rw [hcr]
      simp

theorem pyStripWs_of_ends (s : Str) (c : Char) (r : Str) (hs : s = c :: r)
    (hc : pySpace c = false) (c2 : Char) (r2 : Str) (hrev : s.reverse = c2 :: r2)
    (hc2 : pySpace c2 = false) : pyStripWs s = s := by
  unfold pyStripWs
  rw [hs, dropWhile_cons_of_neg c r hc, ← hs, hrev, dropWhile_cons_of_neg c2 r2 hc2,
    ← hrev, List.reverse_reverse]

theorem firstDateCreator_props : ∀ (parts : List Str),
    (∀ x ∈ parts, x ≠ [] ∧ x.all (fun c => !pySpace c) = true) →
    firstDateCreator parts = [] ∨
      (pyStripWs (firstDateCreator parts) = firstDateCreator parts ∧
        firstDateCreator parts ≠ []) := by
  intro parts
  induction parts with
  | nil => intro _; exact Or.inl rfl
  | cons p ps ih =>
    intro hall
    rw [firstDateCreator]
    by_cases hd : dateTokenMatch p = true
    · rw [if_pos hd]
      cases ps with
      | nil => exact Or.inl rfl
      | cons q qs =>
        have hts : ∀ x ∈ q :: qs, x ≠ [] ∧ x.all (fun c => !pySpace c) = true := by
          intro x hx
          exact hall x (List.mem_cons_of_mem p hx)
        obtain ⟨c, r, hcr, hc⟩ := joinSpace_head (q :: qs) (by simp) hts
        obtain ⟨c2, r2, hcr2, hc2⟩ := joinSpace_last (q :: qs) (by simp) hts
        refine Or.inr ⟨pyStripWs_of_ends _ c r hcr hc c2 r2 hcr2 hc2, ?_⟩
        rw [hcr]
        simp
    · rw [if_neg hd]
      exact ih (by intro x hx; exact hall x (List.mem_cons_of_mem p hx))

/-! ## Properties of `sanitize_filename` -/

theorem pyInStr_false_of_part (n s t u v : Str) (hs : s = u ++ t ++ v)
    (h : pyInStr n s = false) : pyInStr n t = false := by
  cases hpt : pyInStr n t with
  | false => rfl
  | true =>
    exfalso
    obtain ⟨a, b, ht⟩ := (pyInStr_iff n t).mp hpt
    have : pyInStr n s = true := by
      refine (pyInStr_iff n s).mpr ⟨u ++ a, b ++ v, ?_⟩
      rw [hs, ht]
      simp [List.append_assoc]
    rw [this] at h
    exact Bool.noConfusion h

theorem all_of_part (p : Char → Bool) (s t u v : Str) (hs : s = u ++ t ++ v)
    (h : s.all p = true) : t.all p = true := by
  subst hs
  simp only [List.all_append, Bool.and_eq_true] at h
  exact h.1.2

theorem collapseUAux_all (p : Char → Bool) : ∀ (s : Str) (b : Bool),
    s.all p = true → (collapseUAux b s).all p = true := by
  intro s
  induction s with
  | nil => intro b _; rfl
  | cons c t ih =>
    intro b hall
    simp only [List.all_cons, Bool.and_eq_true] at hall
    rw [collapseUAux]
    by_cases hc : c = '_'
    · rw [if_pos hc]
      cases b with
      | true => exact ih true hall.2
      | false =>
        simp only [Bool.false_eq_true, if_false, List.all_cons, Bool.and_eq_true]
        exact ⟨hc ▸ hall.1, ih true hall.2⟩
    · rw [if_neg hc]
      simp only [List.all_cons, Bool.and_eq_true]
      exact ⟨hall.1, ih false hall.2⟩

theorem collapseUAux_nodd : ∀ (s : Str) (b : Bool),
    pyInStr ('_' :: '_' :: []) (collapseUAux b s) = false ∧
    (∀ c t, collapseUAux true s = c :: t → c ≠ '_') := by
  intro s
  induction s with
  | nil =>
    intro b
    exact ⟨rfl, fun c t h => List.noConfusion h⟩
  | cons c t ih =>
    intro b
    constructor
    · rw [collapseUAux]
      by_cases hc : c = '_'
      · rw [if_pos hc]
        cases b with
        | true => exact (ih true).1
        | false =>
          have hrest := (ih true).1
          have hhead := (ih true).2
          simp only [Bool.false_eq_true, if_false]
          rw [pyInStr]
          simp only [Bool.or_eq_false_iff]
          refine ⟨?_, hrest⟩
          cases hout : collapseUAux true t with
          | nil => decide
          | cons d r =>
            have hd : d ≠ '_' := hhead d r hout
            simp [startsWithStr, Ne.symm hd]
      · rw [if_neg hc]
        rw [pyInStr]
        simp only [Bool.or_eq_false_iff]
        refine ⟨?_, (ih false).1⟩
        simp [startsWithStr, Ne.symm hc]
    · intro c2 t2 h2
      rw [collapseUAux] at h2
      by_cases hc : c = '_'
      · rw [if_pos hc] at h2
        exact (ih true).2 c2 t2 h2
      · rw [if_neg hc] at h2
        injection h2 with he _
        exact he ▸ hc

theorem stripChar_part (ch : Char) (s : Str) :
    ∃ u v, s = u ++ pyStripChar ch s ++ v := by
  unfold pyStripChar
  refine ⟨s.takeWhile (· = ch),
    ((s.dropWhile (· = ch)).reverse.takeWhile (· = ch)).reverse, ?_⟩
  conv_lhs => rw [← List.takeWhile_append_dropWhile (p := (· = ch)) (l := s)]
  rw [List.append_assoc]
  congr 1
  conv_lhs => rw [← List.reverse_reverse (s.dropWhile (· = ch))]
  conv_lhs => rw [← List.takeWhile_append_dropWhile (p := (· = ch))
    (l := (s.dropWhile (· = ch)).reverse)]
  rw [List.reverse_append]

theorem take_part (n : Nat) (s : Str) : ∃ u v, s = u ++ s.take n ++ v :=
  ⟨[], s.drop n, by simp⟩

theorem sanitizeStem_props (name : Str) :
    (sanitizeStem name).all (fun c => !forbiddenChar c && !(c = ' ')) = true ∧
    pyInStr ('_' :: '_' :: []) (sanitizeStem name) = false ∧
    (sanitizeStem name).length ≤ 200 := by
  unfold sanitizeStem
  simp only []
  set s2 := (name.map (fun c => if forbiddenChar c then '_' else c)).map
    (fun c => if c = ' ' then '_' else c) with hs2
  have hf1 : ∀ c : Char, forbiddenChar (if forbiddenChar c = true then '_' else c) = false := by
    intro c
    by_cases hf : forbiddenChar c = true
    · rw [if_pos hf]; decide
    · rw [if_neg hf]; exact Bool.eq_false_iff.mpr hf
  have hg1 : ∀ c : Char, forbiddenChar c = false →
      (!forbiddenChar (if c = ' ' then '_' else c) &&
        !((if c = ' ' then '_' else c) = ' ')) = true := by
    intro c hfc
    by_cases hsp : c = ' '
    · rw [if_pos hsp]; decide
    · rw [if_neg hsp]
      simp [hfc, hsp]
  have h2 : s2.all (fun c => !forbiddenChar c && !(c = ' ')) = true := by
    rw [hs2]
    simp only [List.all_map, List.all_eq_true, Function.comp]
    intro c _
    exact hg1 _ (hf1 c)
  have h3 : (collapseUnderscores s2).all (fun c => !forbiddenChar c && !(c = ' ')) = true :=
    collapseUAux_all _ s2 false h2
  have h3d : pyInStr ('_' :: '_' :: []) (collapseUnderscores s2) = false :=
    (collapseUAux_nodd s2 false).1
  obtain ⟨u, v, huv⟩ := stripChar_part '_' (collapseUnderscores s2)
  have h4 : (pyStripChar '_' (collapseUnderscores s2)).all
      (fun c => !forbiddenChar c && !(c = ' ')) = true :=
    all_of_part _ _ _ u v huv h3
  have h4d : pyInStr ('_' :: '_' :: []) (pyStripChar '_' (collapseUnderscores s2)) = false :=
    pyInStr_false_of_part _ _ _ u v huv h3d
  set s4 := pyStripChar '_' (collapseUnderscores s2) with hs4
  by_cases hlen : 200 < s4.length
  · rw [if_pos hlen]
    obtain ⟨u2, v2, huv2⟩ := take_part 200 s4
    refine ⟨all_of_part _ _ _ u2 v2 huv2 h4,
      pyInStr_false_of_part _ _ _ u2 v2 huv2 h4d, ?_⟩
    simp
  · rw [if_neg hlen]
    exact ⟨h4, h4d, by omega⟩

/-! ## Round trip of one Content-Length framed request -/

theorem send_request_cl_encode (p j : Json) (hwf : wfJson j = true) (extra : Str)
    (closed : Bool) (hcap : (natDigits (dumpsJson j).length).length ≤ 8172) :
    send_request_cl p (encodeCL j ++ extra) closed = (some j, extra) := by
  unfold send_request_cl
  rw [clRead_encode j hwf extra closed hcap]

/-! ## The claims -/

/-- C1 (corrected): `DashboardListParser.__init__` does fail fast on a missing or
blank creator, but `export_all_dashboards` applies the creator filter only when
the filter string is non-empty — with an empty filter the parsed dashboard list
is returned unfiltered, so a creator-unfiltered code path does exist. -/
theorem claim_C1 (s raw : Str) :
    (pyStripWs s = [] → ∃ e, DashboardListParser_init s = Except.error e) ∧
    exportListPath [] raw = parseRawText raw := by
  constructor
  · intro h
    refine ⟨(("required_creator must be specified").toList), ?_⟩
    unfold DashboardListParser_init
    by_cases hs : s = []
    · rw [if_pos hs]
    · rw [if_neg hs, if_pos h]
  · unfold exportListPath export_all_dashboards_filter
    rw [if_pos rfl]

/-- C1 witness: the blank creator `" "` is rejected by the constructor. -/
theorem claim_C1_witness : ∃ e, DashboardListParser_init (' ' :: []) = Except.error e :=
  (claim_C1 (' ' :: []) []).1 (by decide)

/-- C1 counterexample: with an empty creator filter the export path returns a
non-empty, creator-unfiltered dashboard list instead of failing. -/
theorem claim_C1_counterexample :
    exportListPath []
        (("- row \"n about 1 hour ago 1/2/2020 Someone Else\" [ref=e1]\n  - /url: /dashboards/abc123\n  - rowheader \"n\" [ref=e2]").toList) =
      [⟨urlOfId (("abc123").toList), ("n").toList, ("Someone Else").toList⟩] := by
  decide

/-- C2 (confirmed): with a non-empty creator filter, the filtering step keeps
exactly the dashboards whose creator contains the filter case-insensitively
(as a substring, hence also on equality); a creator "Someone Else" is dropped
and "jason gilbertson" is kept for the filter "Jason Gilbertson". -/
theorem claim_C2 (cf : Str) (ds : List Dash) (d : Dash) (h : cf ≠ []) :
    (d ∈ export_all_dashboards_filter cf ds ↔
      d ∈ ds ∧ ∃ a b, pyLower d.creator = a ++ pyLower cf ++ b) ∧
    export_all_dashboards_filter (("Jason Gilbertson").toList)
        [⟨[], [], ("Someone Else").toList⟩, ⟨[], [], ("jason gilbertson").toList⟩] =
      [⟨[], [], ("jason gilbertson").toList⟩] := by
  constructor
  · unfold export_all_dashboards_filter
    rw [if_neg h]
    rw [List.mem_filter]
    exact and_congr_right fun _ => pyInStr_iff _ _
  · decide

/-- C2 witness: the concrete include/exclude pair behaves as claimed. -/
theorem claim_C2_witness :
    export_all_dashboards_filter (("Jason Gilbertson").toList)
        [⟨[], [], ("Someone Else").toList⟩, ⟨[], [], ("jason gilbertson").toList⟩] =
      [⟨[], [], ("jason gilbertson").toList⟩] :=
  (claim_C2 (("x").toList) [] ⟨[], [], []⟩ (by decide)).2

/-- C3 (corrected): both transports decode exactly one frame per request and
return it whatever its `id` — the written payload plays no part in what is
returned, and no frame is ever discarded while waiting for a matching id. -/
theorem claim_C3 (payload j : Json) (extra : Str) (closed : Bool)
    (hwf : wfJson j = true)
    (hcap : (natDigits (dumpsJson j).length).length ≤ 8172) :
    send_request_nl payload (dumpsJson j ++ '\n' :: extra) closed = some j ∧
    send_request_cl payload (encodeCL j ++ extra) closed = (some j, extra) := by
  constructor
  · unfold send_request_nl
    exact read_message_encode j hwf extra closed
  · exact send_request_cl_encode payload j hwf extra closed hcap

/-- C3 witness: a frame is returned unchanged for an arbitrary payload. -/
theorem claim_C3_witness :
    send_request_nl (Json.num 0) (dumpsJson (Json.num 3) ++ '\n' :: []) true =
      some (Json.num 3) :=
  (claim_C3 (Json.num 0) (Json.num 3) [] true rfl (by decide)).1

/-- C3 counterexample: a request carrying id 1 receives the one available frame
even though that frame's id is 999 — non-matching ids are not discarded. -/
theorem claim_C3_counterexample :
    send_request_nl (mkInitReq 1 none) (encodeNl (.obj [(("id").toList, .num 999)])) false =
      some (.obj [(("id").toList, .num 999)]) ∧
    jsonLookup (("id").toList) (mkInitReq 1 none) = some (.num 1) ∧
    jsonLookup (("id").toList) (.obj [(("id").toList, .num 999)]) = some (.num 999) ∧
    (999 : Int) ≠ 1 := by
  exact ⟨rfl, rfl, rfl, by decide⟩

/-- C4 (corrected): the Working client's body loop never produces a message
from fewer bytes than declared — a truncated stream ends in EOF (closed) or in
the failed exact-length check (open), and any produced message parsed from a
body of exactly the declared length.  (The Simple client named by the claim
has no such guarantee; see the counterexample.) -/
theorem claim_C4 (f : Nat) (len : Int) (body data : Str) (closed : Bool) :
    ((body.length : Int) + data.length < len → data.length < f →
      (clReadBody f len body data closed).1 =
        (if closed then CLResult.eofBody else CLResult.bodyIncomplete)) ∧
    (∀ j rest, clReadBody f len body data closed = (.msg j, rest) →
      ∃ final, (final.length : Int) = len ∧ loads final = some j) :=
  ⟨fun h1 h2 => clReadBody_truncated len body data closed f h1 h2,
   fun j rest h => clReadBody_msg_inv j f len body data closed rest h⟩

/-- C4 witness: a stream that ends before the declared 100 bytes yields EOF. -/
theorem claim_C4_witness : (clReadBody 1 100 [] [] true).1 = CLResult.eofBody := by
  have h := (claim_C4 1 100 [] [] true).1 (by decide) (by decide)
  simpa using h

/-- C4 counterexample: `SimplePyMCPClient._send_cl_request` parses a message
out of a single byte although the header declared 100 bytes. -/
theorem claim_C4_counterexample :
    simple_send_cl_request ((("Content-Length: 100").toList) ++
        ('\r' :: '\n' :: '\r' :: '\n' :: dumpsJson (Json.num 5))) = some (Json.num 5) ∧
    (dumpsJson (Json.num 5)).length = 1 := by
  exact ⟨rfl, rfl⟩

/-- C5 (confirmed): `connect` tries the candidate protocol versions in order,
ending with a no-version attempt; the first response that is truthy and
contains "result" wins and later candidates are never attempted, and after
exhaustion the last response is surfaced together with captured stderr. -/
theorem claim_C5 (e r : Json) (extra stderrData : Str) (closed : Bool)
    (hwfe : wfJson e = true) (hwfr : wfJson r = true)
    (hte : pyTruthyJson e = true) (htr : pyTruthyJson r = true)
    (hce : pyContains (("result").toList) e = some false)
    (hcr : pyContains (("result").toList) r = some true)
    (hcape : (natDigits (dumpsJson e).length).length ≤ 8172)
    (hcapr : (natDigits (dumpsJson r).length).length ≤ 8172) :
    candidateVersions = [some (("2024-11-05").toList), some (("2024-08-19").toList),
      some (("2024-07-01").toList), some (("2024-06-01").toList), none] ∧
    jsonLookup (("protocolVersion").toList) (mkInitParams none) = none ∧
    (∀ s, jsonLookup (("protocolVersion").toList) (mkInitParams (some s)) =
      some (.str s)) ∧
    connectModel stderrData (encodeCL e ++ (encodeCL r ++ extra)) closed =
      .ok (some (("2024-08-19").toList))
        [some (("2024-11-05").toList), some (("2024-08-19").toList)] ∧
    connectModel stderrData
        (encodeCL e ++ (encodeCL e ++ (encodeCL e ++ (encodeCL e ++ (encodeCL e ++ extra)))))
        closed =
      .failed (some e) stderrData candidateVersions := by
  refine ⟨rfl, rfl, fun s => rfl, ?_, ?_⟩
  · unfold connectModel candidateVersions
    rw [connectLoop]
    rw [send_request_cl_encode _ e hwfe _ closed hcape]
    simp only []
    rw [hte, if_pos rfl, hce]
    simp only []
    rw [connectLoop]
    rw [send_request_cl_encode _ r hwfr _ closed hcapr]
    simp only []
    rw [htr, if_pos rfl, hcr]
    simp only []
    simp
  · unfold connectModel candidateVersions
    rw [connectLoop]
    rw [send_request_cl_encode _ e hwfe _ closed hcape]
    simp only []
    rw [hte, if_pos rfl, hce]
    simp only []
    rw [connectLoop]
    rw [send_request_cl_encode _ e hwfe _ closed hcape]
    simp only []
    rw [hte, if_pos rfl, hce]
    simp only []
    rw [connectLoop]
    rw [send_request_cl_encode _ e hwfe _ closed hcape]
    simp only []
    rw [hte, if_pos rfl, hce]
    simp only []
    rw [connectLoop]
    rw [send_request_cl_encode _ e hwfe _ closed hcape]
    simp only []
    rw [hte, if_pos rfl, hce]
    simp only []
    rw [connectLoop]
    rw [send_request_cl_encode _ e hwfe _ closed hcape]
    simp only []
    rw [hte, if_pos rfl, hce]
    simp only []
    rw [connectLoop]
    rfl

/-- C5 witness: a concrete error-then-result stream negotiates the second
candidate and never attempts the third. -/
theorem claim_C5_witness :
    connectModel []
        (encodeCL (.obj [(("error").toList, .num 1)]) ++
          (encodeCL (.obj [(("result").toList, .num 1)]) ++ [])) true =
      .ok (some (("2024-08-19").toList))
        [some (("2024-11-05").toList), some (("2024-08-19").toList)] :=
  (claim_C5 (.obj [(("error").toList, .num 1)]) (.obj [(("result").toList, .num 1)])
    [] [] true rfl rfl rfl rfl rfl rfl (by decide) (by decide)).2.2.2.1

/-- C6 (confirmed): the documented armprod snapshot yields exactly one record
with name "armprod", creator "Jason Gilbertson" and the dashboard URL built
from the identifier 12345678-1234-1234-1234-123456789abc. -/
theorem claim_C6 :
    parseRawText (("- row \"armprod about 1 hour ago 11/3/2020 Jason Gilbertson\" [ref=e70]\n  - /url: /dashboards/12345678-1234-1234-1234-123456789abc\n  - rowheader \"armprod\" [ref=e71]").toList) =
      [⟨urlOfId (("12345678-1234-1234-1234-123456789abc").toList), ("armprod").toList,
        ("Jason Gilbertson").toList⟩] := by
  decide

/-- C7 (corrected): the extracted creator equals the spec's join-after-date
exactly when that join is non-empty; when it is empty (no date token, or
nothing after the date) the sentinel "--" is used instead, and a sentinel unit
does pass the creator filter whenever the filter is a case-insensitive
substring of "--" (e.g. "-"), so sentinel units are not always non-matches. -/
theorem claim_C7 (row cf : Str) (d : Dash) (hd : d.creator = ('-' :: '-' :: [])) :
    (specCreatorAfterDate row ≠ [] → extractCreator row = specCreatorAfterDate row) ∧
    (specCreatorAfterDate row = [] → extractCreator row = ('-' :: '-' :: [])) ∧
    (d ∈ export_all_dashboards_filter cf [d] ↔
      cf = [] ∨ pyInStr (pyLower cf) ('-' :: '-' :: []) = true) := by
  refine ⟨?_, ?_, ?_⟩
  · intro h
    unfold specCreatorAfterDate at h ⊢
    unfold extractCreator
    simp only []
    by_cases hz : firstDateCreator (splitWs row) = []
    · rw [hz] at h
      exact absurd rfl h
    · rw [if_neg hz]
  · intro h
    unfold specCreatorAfterDate at h
    unfold extractCreator
    simp only []
    by_cases hz : firstDateCreator (splitWs row) = []
    · rw [hz, if_pos rfl]
      decide
    · exfalso
      rcases firstDateCreator_props (splitWs row) (splitWs_tokens row) with h0 | ⟨hstrip, hne⟩
      · exact hz h0
      · exact hne (hstrip.symm.trans h)
  · unfold export_all_dashboards_filter
    by_cases hcf : cf = []
    · rw [if_pos hcf]
      exact iff_of_true (List.mem_singleton.mpr rfl) (Or.inl hcf)
    · rw [if_neg hcf]
      rw [List.mem_filter]
      have hlow : pyLower d.creator = ('-' :: '-' :: []) := by
        rw [hd]
        decide
      rw [hlow]
      constructor
      · rintro ⟨_, hp⟩
        exact Or.inr hp
      · rintro (hc | hp)
        · exact absurd hc hcf
        · exact ⟨List.mem_singleton.mpr rfl, hp⟩

/-- C7 witness: with a creator after the date the extraction agrees with the
spec's join-after-date reading. -/
theorem claim_C7_witness :
    extractCreator (("a 1/2/2020 Bob").toList) =
      specCreatorAfterDate (("a 1/2/2020 Bob").toList) :=
  (claim_C7 (("a 1/2/2020 Bob").toList) [] ⟨[], [], ('-' :: '-' :: [])⟩ rfl).1 (by decide)

/-- C7 counterexample: a row whose date token is last gets creator "--", not
the empty join the claim describes, and a sentinel unit is retained by the
filter "-" even though "-" is an accepted RequiredCreator. -/
theorem claim_C7_counterexample :
    specCreatorAfterDate (("name soon 1/2/2020").toList) = [] ∧
    extractCreator (("name soon 1/2/2020").toList) = ('-' :: '-' :: []) ∧
    DashboardListParser_init ('-' :: []) = Except.ok ('-' :: []) ∧
    export_all_dashboards_filter ('-' :: []) [⟨[], [], ('-' :: '-' :: [])⟩] =
      [⟨[], [], ('-' :: '-' :: [])⟩] := by
  refine ⟨by decide, by decide, rfl, by decide⟩

/-- C8 (corrected): every emitted unit has a non-empty name and a URL built
from a non-empty identifier drawn from the class `[a-f0-9-]` — but no
36-character (canonical UUID) shape is enforced; see the counterexample. -/
theorem claim_C8 (lines : List Str) (d : Dash) (h : d ∈ parse_raw_snapshot_text lines) :
    d.name ≠ [] ∧ ∃ id, d.url = urlOfId id ∧ id ≠ [] ∧ id.all hexDash = true := by
  obtain ⟨i, -, hstep⟩ := List.mem_filterMap.mp h
  exact parseStep_some lines i d hstep

/-- C8 witness: the emitted unit of a small snapshot has the guaranteed shape. -/
theorem claim_C8_witness :
    (⟨urlOfId (("abc").toList), ("n").toList, ("c").toList⟩ : Dash).name ≠ [] ∧
    ∃ id, (⟨urlOfId (("abc").toList), ("n").toList, ("c").toList⟩ : Dash).url = urlOfId id ∧
      id ≠ [] ∧ id.all hexDash = true :=
  claim_C8
    (pySplitNl (("- row \"n now 1/2/2020 c\" [ref=e1]\n  - /url: /dashboards/abc\n  - rowheader \"n\" [ref=e2]").toList))
    ⟨urlOfId (("abc").toList), ("n").toList, ("c").toList⟩ (by decide)

/-- C8 counterexample: a 3-character identifier is accepted and the unit
emitted, although 3 ≠ 36 — the UUID shape of the claim is not checked. -/
theorem claim_C8_counterexample :
    parseRawText (("- row \"n now 1/2/2020 c\" [ref=e1]\n  - /url: /dashboards/abc\n  - rowheader \"n\" [ref=e2]").toList) =
      [⟨urlOfId (("abc").toList), ("n").toList, ("c").toList⟩] ∧
    (("abc").toList).length ≠ 36 := by
  decide

/-- C9 (confirmed): decoding an encoded message returns the message for both
framings — newline-delimited and Content-Length — leaving the rest of the
stream untouched in the Content-Length case. -/
theorem claim_C9 (j : Json) (extra : Str) (closed : Bool) (hwf : wfJson j = true)
    (hcap : (natDigits (dumpsJson j).length).length ≤ 8172) :
    read_message (encodeNl j ++ extra) closed = some j ∧
    clRead (encodeCL j ++ extra) closed = (.msg j, extra) := by
  constructor
  · have hsh : encodeNl j ++ extra = dumpsJson j ++ '\n' :: extra := by
      unfold encodeNl
      simp
    rw [hsh]
    exact read_message_encode j hwf extra closed
  · exact clRead_encode j hwf extra closed hcap

/-- C9 witness: the round trip at a concrete message. -/
theorem claim_C9_witness :
    read_message (encodeNl (Json.num 42) ++ []) false = some (Json.num 42) :=
  (claim_C9 (Json.num 42) [] false rfl (by decide)).1

/-- C10 (confirmed): `sanitize_filename` returns its sanitised stem followed by
".json"; the stem holds no forbidden character and no space, no two adjacent
underscores survive the collapse, and the stem is at most 200 characters. -/
theorem claim_C10 (name : Str) :
    sanitize_filename name = sanitizeStem name ++ ((".json").toList) ∧
    (sanitizeStem name).all (fun c => !forbiddenChar c && !(c = ' ')) = true ∧
    pyInStr ('_' :: '_' :: []) (sanitizeStem name) = false ∧
    (sanitizeStem name).length ≤ 200 :=
  ⟨rfl, (sanitizeStem_props name).1, (sanitizeStem_props name).2.1,
    (sanitizeStem_props name).2.2⟩
